import Mathlib

/-!
Verification of the storage layer of the `ci` continuous-integration server
(`db/db.go`), against its natural-language specification.

The Go code stores everything in a boltdb file.  We shallowly embed the
reachable fragment of boltdb as an idealized ordered key/value engine:

* a *bucket* holds a sequence counter and an association list of entries,
  each entry being either a leaf value or a nested sub-bucket (bolt keeps
  the two in one byte-ordered key namespace, and a cursor walks both);
* keys are byte sequences (`List Nat`, each byte < 256 on real inputs);
* bolt's key order is byte-wise lexicographic, and our insertion function
  places entries at their sorted position, so list order = cursor order;
* `Put` on a key holding a sub-bucket, `Delete` of a sub-bucket key, and
  creating a bucket whose key holds a leaf are errors (bolt's
  `ErrIncompatibleValue`); empty keys/bucket names are errors as in bolt;
* sequence counters are 64-bit, hence the explicit `% 2 ^ 64`;
* `gob` encoding is modelled by a tagged value type: the encoder is
  injective on `Build` records and its output is distinguishable from the
  8-byte big-endian integers and empty byte strings that the code also
  stores, so decoding a non-record value fails (as `gob` decoding of such
  bytes does).

Go errors are modelled by an inductive `Err` carrying the same data the
`fmt.Errorf` messages carry; transactions are atomic, so every top-level
operation is a pure function from a `Store` to `Except Err` of its result
(an error rolls the transaction back, returning no state).
-/

/-- 2^64, the modulus of Go's `uint64` used by bolt sequence counters. -/
def U64 : Nat := 18446744073709551616

/-- A bolt key: a byte string. -/
abbrev Key := List Nat

/-- `itob` from db.go: the 8-byte big-endian representation of a `uint64`
(`binary.BigEndian.PutUint64`); the explicit `% U64` is the `uint64`
truncation. -/
def itob (v : Nat) : Key :=
  [v % 18446744073709551616 / 72057594037927936,
   v % 72057594037927936 / 281474976710656,
   v % 281474976710656 / 1099511627776,
   v % 1099511627776 / 4294967296,
   v % 4294967296 / 16777216,
   v % 16777216 / 65536,
   v % 65536 / 256,
   v % 256]

/-- `btoi` from db.go: read a `uint64` back from 8 big-endian bytes
(`binary.BigEndian.Uint64`).  On byte lists of other shapes Go would panic;
the code only ever applies it to 8-byte keys/values. -/
def btoi : Key → Nat
  | [b0, b1, b2, b3, b4, b5, b6, b7] =>
      b0 * 72057594037927936 + b1 * 281474976710656 + b2 * 1099511627776 +
      b3 * 4294967296 + b4 * 16777216 + b5 * 65536 + b6 * 256 + b7
  | _ => 0

/-- Byte-wise lexicographic order on keys (bolt's `bytes.Compare < 0`):
a strict prefix sorts first. -/
def keyLtb : Key → Key → Bool
  | [], [] => false
  | [], _ :: _ => true
  | _ :: _, [] => false
  | a :: as, b :: bs => a < b || (a = b && keyLtb as bs)

/-- Go's `[]byte(s)` conversion of a string key.  We map each character to
its code point; on the ASCII ref names and commit SHAs the code handles
this coincides with UTF-8 bytes, and it is injective on all strings, which
is what the proofs use. -/
def strKey (s : String) : Key := s.data.map Char.toNat

theorem btoi_itob (v : Nat) : btoi (itob v) = v % U64 := by
  simp only [itob, btoi, U64]
  omega

theorem itob_mod (v : Nat) : itob v = itob (v % U64) := by
  simp only [itob, U64, List.cons.injEq, and_true]
  omega

theorem itob_inj {a b : Nat} (ha : a < U64) (hb : b < U64)
    (h : itob a = itob b) : a = b := by
  have := congrArg btoi h
  rwa [btoi_itob, btoi_itob, Nat.mod_eq_of_lt ha, Nat.mod_eq_of_lt hb] at this

theorem divmod_lt_iff (N x y : Nat) :
    (x / N < y / N ∨ (x / N = y / N ∧ x % N < y % N)) ↔ x < y := by
  have e1 := Nat.div_add_mod x N
  have e2 := Nat.div_add_mod y N
  constructor
  · rintro (h | ⟨h1, h2⟩)
    · by_contra hxy
      push_neg at hxy
      exact absurd (Nat.div_le_div_right (c := N) hxy) (by omega)
    · rw [h1] at e1
      omega
  · intro h
    rcases Nat.lt_or_ge (x / N) (y / N) with h' | h'
    · exact Or.inl h'
    · have h'' : x / N = y / N :=
        le_antisymm (Nat.div_le_div_right (le_of_lt h)) h'
      rw [h''] at e1
      exact Or.inr ⟨h'', by omega⟩

theorem modmod (a c k : Nat) (h : c ∣ k) : a % k % c = a % c :=
  Nat.mod_mod_of_dvd a h

theorem keyLtb_itob {a b : Nat} (ha : a < U64) (hb : b < U64) :
    keyLtb (itob a) (itob b) = true ↔ a < b := by
  have ha' : a % 18446744073709551616 = a := Nat.mod_eq_of_lt ha
  have hb' : b % 18446744073709551616 = b := Nat.mod_eq_of_lt hb
  have L1 := divmod_lt_iff 256 (a % 65536) (b % 65536)
  rw [modmod a 256 65536 ⟨256, rfl⟩, modmod b 256 65536 ⟨256, rfl⟩] at L1
  have L2 := divmod_lt_iff 65536 (a % 16777216) (b % 16777216)
  rw [modmod a 65536 16777216 ⟨256, rfl⟩, modmod b 65536 16777216 ⟨256, rfl⟩] at L2
  have L3 := divmod_lt_iff 16777216 (a % 4294967296) (b % 4294967296)
  rw [modmod a 16777216 4294967296 ⟨256, rfl⟩,
    modmod b 16777216 4294967296 ⟨256, rfl⟩] at L3
  have L4 := divmod_lt_iff 4294967296 (a % 1099511627776) (b % 1099511627776)
  rw [modmod a 4294967296 1099511627776 ⟨256, rfl⟩,
    modmod b 4294967296 1099511627776 ⟨256, rfl⟩] at L4
  have L5 := divmod_lt_iff 1099511627776 (a % 281474976710656) (b % 281474976710656)
  rw [modmod a 1099511627776 281474976710656 ⟨256, rfl⟩,
    modmod b 1099511627776 281474976710656 ⟨256, rfl⟩] at L5
  have L6 := divmod_lt_iff 281474976710656 (a % 72057594037927936) (b % 72057594037927936)
  rw [modmod a 281474976710656 72057594037927936 ⟨256, rfl⟩,
    modmod b 281474976710656 72057594037927936 ⟨256, rfl⟩] at L6
  have L7 := divmod_lt_iff 72057594037927936 (a % 18446744073709551616)
    (b % 18446744073709551616)
  rw [modmod a 72057594037927936 18446744073709551616 ⟨256, rfl⟩,
    modmod b 72057594037927936 18446744073709551616 ⟨256, rfl⟩, ha', hb'] at L7
  simp only [itob, keyLtb, Bool.or_eq_true, Bool.and_eq_true, decide_eq_true_eq,
    Bool.false_eq_true, and_false, or_false]
  rw [L1, L2, L3, L4, L5, L6, ha', hb', L7]

theorem char_toNat_inj : Function.Injective Char.toNat := by
  intro c d h
  exact Char.eq_of_val_eq (UInt32.eq_of_toBitVec_eq (BitVec.eq_of_toNat_eq h))

theorem strKey_inj : Function.Injective strKey := by
  intro s t h
  have hd := List.map_injective_iff.mpr char_toNat_inj h
  cases s; cases t; exact congrArg String.mk hd

/-! ### Additional facts about the key order -/

theorem keyLtb_asymm : ∀ {a b : Key}, keyLtb a b = true → keyLtb b a = true → False
  | [], [], hab, _ => by simp [keyLtb] at hab
  | [], _ :: _, _, hba => by simp [keyLtb] at hba
  | _ :: _, [], hab, _ => by simp [keyLtb] at hab
  | x :: xs, y :: ys, hab, hba => by
    simp only [keyLtb, Bool.or_eq_true, Bool.and_eq_true, decide_eq_true_eq]
      at hab hba
    rcases hab with h | ⟨rfl, h⟩
    · rcases hba with h' | ⟨h', _⟩ <;> omega
    · rcases hba with h' | ⟨_, h'⟩
      · omega
      · exact keyLtb_asymm h h'

theorem keyLtb_irrefl : ∀ (a : Key), keyLtb a a = false
  | [] => by simp [keyLtb]
  | x :: xs => by simp [keyLtb, keyLtb_irrefl xs]

theorem keyLtb_ne {a b : Key} (h : keyLtb a b = true) : a ≠ b := by
  intro he
  rw [he, keyLtb_irrefl] at h
  exact Bool.false_ne_true h

/-! ### The data model

The Go `Build` struct is declared outside `db/db.go`; `CreateBuild` sets the
fields `T`, `CloneURL`, `Ref`, `CommitSHA` and later `ID`.  The `Status`
field and its values are modelled from the spec: `Status:
enum{Queued,Running,Success,Error,Failed}` (§3), with `Queued` the Go zero
value a fresh record carries.  The unexported `db *DB` handle field is not
serialized by `gob` and is set to the same receiver by every accessor, so it
does not participate in record equality and is omitted.  `BuildType` is an
integer-valued enumeration (the code converts it with `uint64(build.T)`),
modelled as `Nat`. -/

/-- Build status, modelled from the spec (§3); `queued` is the zero value. -/
inductive Status where
  | queued
  | running
  | success
  | error
  | failed
deriving DecidableEq

/-- Terminal statuses per the spec: Success, Error, Failed. -/
def Status.isTerminal : Status → Bool
  | .success => true
  | .error => true
  | .failed => true
  | _ => false

/-- The build-type enumeration (push / pull-request), integer valued. -/
abbrev BuildType := Nat

/-- The `Build` record (Go struct `Build`, exported fields only). -/
structure Build where
  ID : Nat
  T : BuildType
  CloneURL : String
  Ref : String
  CommitSHA : String
  Status : Status
deriving DecidableEq

/-- Alias for the `Build` record, usable inside the `DB` namespace where the
unqualified name `Build` resolves to the query `DB.Build`. -/
abbrev BuildRecord := Build

/-- The errors of db.go, as an inductive carrying the data that the
corresponding Go error values / `fmt.Errorf` messages carry.  The first six
are bolt-level errors, the last three are the messages of `validate`. -/
inductive Err where
  | noBuildBucket
  | idNotExist (id : Nat)
  | gobDecode
  | incompatibleValue
  | keyRequired
  | bucketNameRequired
  | invalidStart (start : Int)
  | invalidEnd (e : Int)
  | invalidRange (start e : Int)
deriving DecidableEq

/-- A stored value: either raw bytes (`itob` cross-references, the empty
pending marker) or the `gob` encoding of a `Build` record.  `gob` encoding
is injective and its output is never an 8-byte big-endian integer or the
empty string, which this tagged representation captures. -/
inductive Val where
  | bytes (bs : List Nat)
  | gobBuild (b : Build)
deriving DecidableEq

/-- A bolt bucket: a per-bucket sequence counter plus one byte-ordered key
namespace whose entries are leaf values (`Sum.inl`) or nested sub-buckets
(`Sum.inr`).  The entry list is kept in bolt's cursor order (ascending
`keyLtb`) by `insertEntry`. -/
inductive Bkt where
  | mk (seq : Nat) (entries : List (Key × (Val ⊕ Bkt)))

/-- An entry of a bucket: leaf value or sub-bucket. -/
abbrev Ent := Val ⊕ Bkt

def Bkt.seq : Bkt → Nat
  | .mk s _ => s

def Bkt.entries : Bkt → List (Key × Ent)
  | .mk _ l => l

/-- A freshly created bucket. -/
def Bkt.empty : Bkt := .mk 0 []

/-- Association lookup in a bucket's entry list. -/
def findEnt (k : Key) : List (Key × Ent) → Option Ent
  | [] => none
  | (k', e) :: rest => if k = k' then some e else findEnt k rest

/-- Insert or replace the entry at key `k`, keeping the byte-sorted cursor
order that bolt maintains. -/
def insertEntry (k : Key) (e : Ent) : List (Key × Ent) → List (Key × Ent)
  | [] => [(k, e)]
  | (k', e') :: rest =>
    if keyLtb k k' then (k, e) :: (k', e') :: rest
    else if k = k' then (k, e) :: rest
    else (k', e') :: insertEntry k e rest

def Bkt.getEnt (b : Bkt) (k : Key) : Option Ent := findEnt k b.entries

/-- bolt `Bucket.Get`: returns the value at `k`, and `nil` (here `none`)
when the key is absent or holds a sub-bucket. -/
def Bkt.getVal (b : Bkt) (k : Key) : Option Val :=
  match b.getEnt k with
  | some (.inl v) => some v
  | _ => none

/-- bolt `Bucket.Bucket`: the nested sub-bucket at `k`, `none` when the key
is absent or holds a leaf value. -/
def Bkt.getSub (b : Bkt) (k : Key) : Option Bkt :=
  match b.getEnt k with
  | some (.inr s) => some s
  | _ => none

/-- bolt `Bucket.NextSequence`: increment the 64-bit counter and return it. -/
def Bkt.nextSeq (b : Bkt) : Nat × Bkt :=
  ((b.seq + 1) % U64, .mk ((b.seq + 1) % U64) b.entries)

/-- bolt `Bucket.Put`: rejects an empty key (`ErrKeyRequired`) and a key
holding a sub-bucket (`ErrIncompatibleValue`); otherwise inserts/replaces
the leaf. -/
def Bkt.putLeaf (b : Bkt) (k : Key) (v : Val) : Except Err Bkt :=
  if k = [] then .error .keyRequired
  else
    match b.getEnt k with
    | some (.inr _) => .error .incompatibleValue
    | _ => .ok (.mk b.seq (insertEntry k (.inl v) b.entries))

/-- bolt `Bucket.CreateBucketIfNotExists`: rejects an empty name
(`ErrBucketNameRequired`) and a key holding a leaf (`ErrIncompatibleValue`);
creates an empty sub-bucket when absent. -/
def Bkt.ensureSub (b : Bkt) (k : Key) : Except Err Bkt :=
  if k = [] then .error .bucketNameRequired
  else
    match b.getEnt k with
    | some (.inl _) => .error .incompatibleValue
    | some (.inr _) => .ok b
    | none => .ok (.mk b.seq (insertEntry k (.inr Bkt.empty) b.entries))

/-- Write back a (mutated) sub-bucket under key `k`; this models Go's
in-place mutation through a sub-bucket handle obtained from its parent. -/
def Bkt.putSub (b : Bkt) (k : Key) (sb : Bkt) : Bkt :=
  .mk b.seq (insertEntry k (.inr sb) b.entries)

/-- bolt `Bucket.Delete`: deleting a key that holds a sub-bucket is
`ErrIncompatibleValue`; deleting an absent key is a no-op. -/
def Bkt.delete (b : Bkt) (k : Key) : Except Err Bkt :=
  match b.getEnt k with
  | some (.inr _) => .error .incompatibleValue
  | _ => .ok (.mk b.seq (b.entries.filter (fun p => p.1 ≠ k)))

/-- The database file: the top-level buckets db.go uses.  (`status` and
`output` top-level bucket names are declared in db.go but no code shown
under `src/` ever touches them.)  `none` means the bucket has not been
created yet. -/
structure Store where
  build : Option Bkt
  pending : Option Bkt
  sha : Option Bkt
  ref : Option Bkt

/-- A fresh database file: no buckets yet. -/
def Store.empty : Store := ⟨none, none, none, none⟩

/-! ### Entry-list lemmas -/

theorem Bkt.eta (b : Bkt) : Bkt.mk b.seq b.entries = b := by
  cases b; rfl

theorem findEnt_insert_self (k : Key) (e : Ent) :
    ∀ l : List (Key × Ent), findEnt k (insertEntry k e l) = some e
  | [] => by simp [insertEntry, findEnt]
  | (k', e') :: rest => by
    by_cases hlt : keyLtb k k' = true
    · simp [insertEntry, if_pos hlt, findEnt]
    · by_cases heq : k = k'
      · subst heq
        simp [insertEntry, if_neg hlt, findEnt]
      · simp only [insertEntry, if_neg hlt, if_neg heq, findEnt,
          if_neg heq]
        exact findEnt_insert_self k e rest

theorem findEnt_insert_ne (k k' : Key) (e : Ent) (hne : k' ≠ k) :
    ∀ l : List (Key × Ent), findEnt k' (insertEntry k e l) = findEnt k' l
  | [] => by simp [insertEntry, findEnt, hne]
  | (k'', e'') :: rest => by
    by_cases hlt : keyLtb k k'' = true
    · simp only [insertEntry, if_pos hlt, findEnt, if_neg hne]
    · by_cases heq : k = k''
      · subst heq
        simp only [insertEntry, if_neg hlt, if_pos rfl, findEnt, if_neg hne]
      · simp only [insertEntry, if_neg hlt, if_neg heq, findEnt]
        by_cases h2 : k' = k''
        · simp only [if_pos h2]
        · simp only [if_neg h2]
          exact findEnt_insert_ne k k' e hne rest

theorem mem_insertEntry {p : Key × Ent} (k : Key) (e : Ent) :
    ∀ {l : List (Key × Ent)}, p ∈ insertEntry k e l → p = (k, e) ∨ p ∈ l
  | [], h => by simpa [insertEntry] using h
  | (k', e') :: rest, h => by
    by_cases hlt : keyLtb k k' = true
    · rw [insertEntry, if_pos hlt] at h
      rcases List.mem_cons.mp h with h' | h'
      · exact Or.inl h'
      · exact Or.inr h'
    · by_cases heq : k = k'
      · subst heq
        rw [insertEntry, if_neg hlt, if_pos rfl] at h
        rcases List.mem_cons.mp h with h' | h'
        · exact Or.inl h'
        · exact Or.inr (List.mem_cons_of_mem _ h')
      · rw [insertEntry, if_neg hlt, if_neg heq] at h
        rcases List.mem_cons.mp h with h' | h'
        · exact Or.inr (h' ▸ List.mem_cons_self _ _)
        · rcases mem_insertEntry k e h' with h'' | h''
          · exact Or.inl h''
          · exact Or.inr (List.mem_cons_of_mem _ h'')

theorem insertEntry_mem_of_ne {p : Key × Ent} (k : Key) (e : Ent)
    (hne : p.1 ≠ k) : ∀ {l : List (Key × Ent)}, p ∈ l → p ∈ insertEntry k e l
  | (k', e') :: rest, h => by
    by_cases hlt : keyLtb k k' = true
    · rw [insertEntry, if_pos hlt]
      exact List.mem_cons_of_mem _ h
    · by_cases heq : k = k'
      · subst heq
        rw [insertEntry, if_neg hlt, if_pos rfl]
        rcases List.mem_cons.mp h with h' | h'
        · exact absurd (congrArg Prod.fst h') hne
        · exact List.mem_cons_of_mem _ h'
      · rw [insertEntry, if_neg hlt, if_neg heq]
        rcases List.mem_cons.mp h with h' | h'
        · exact h' ▸ List.mem_cons_self _ _
        · exact List.mem_cons_of_mem _ (insertEntry_mem_of_ne k e hne h')

theorem insertEntry_self_mem (k : Key) (e : Ent) :
    ∀ (l : List (Key × Ent)), (k, e) ∈ insertEntry k e l
  | [] => by simp [insertEntry]
  | (k', e') :: rest => by
    by_cases hlt : keyLtb k k' = true
    · rw [insertEntry, if_pos hlt]
      exact List.mem_cons_self _ _
    · by_cases heq : k = k'
      · subst heq
        rw [insertEntry, if_neg hlt, if_pos rfl]
        exact List.mem_cons_self _ _
      · rw [insertEntry, if_neg hlt, if_neg heq]
        exact List.mem_cons_of_mem _ (insertEntry_self_mem k e rest)

/-- When the new key sorts after every existing key, insertion appends at
the end of the cursor order. -/
theorem insertEntry_append (k : Key) (e : Ent) :
    ∀ {l : List (Key × Ent)}, (∀ p ∈ l, keyLtb p.1 k = true) →
      insertEntry k e l = l ++ [(k, e)]
  | [], _ => by simp [insertEntry]
  | (k', e') :: rest, h => by
    have hk' : keyLtb k' k = true := h (k', e') (List.mem_cons_self _ _)
    have hlt : ¬ keyLtb k k' = true := fun hc => keyLtb_asymm hc hk'
    have heq : k ≠ k' := fun hc => keyLtb_ne hk' hc.symm
    rw [insertEntry, if_neg hlt, if_neg heq,
      insertEntry_append k e (fun p hp => h p (List.mem_cons_of_mem _ hp))]
    simp

theorem findEnt_mem {k : Key} {e : Ent} :
    ∀ {l : List (Key × Ent)}, findEnt k l = some e → (k, e) ∈ l
  | (k', e') :: rest, h => by
    by_cases heq : k = k'
    · subst heq
      rw [findEnt, if_pos rfl] at h
      cases h
      exact List.mem_cons_self _ _
    · rw [findEnt, if_neg heq] at h
      exact List.mem_cons_of_mem _ (findEnt_mem h)

theorem findEnt_eq_none {k : Key} :
    ∀ {l : List (Key × Ent)}, findEnt k l = none → ∀ e, (k, e) ∉ l
  | [], _ => by simp
  | (k', e') :: rest, h => by
    by_cases heq : k = k'
    · subst heq
      rw [findEnt, if_pos rfl] at h
      cases h
    · rw [findEnt, if_neg heq] at h
      intro e hmem
      rcases List.mem_cons.mp hmem with h' | h'
      · exact heq (congrArg Prod.fst h')
      · exact findEnt_eq_none h e h'

/-! ### Characterizations of successful bucket operations -/

/-- The entry list produced by a successful `CreateBucketIfNotExists`. -/
def ensEntries (k : Key) (l : List (Key × Ent)) : List (Key × Ent) :=
  match findEnt k l with
  | some (.inr _) => l
  | _ => insertEntry k (.inr Bkt.empty) l

theorem putLeaf_ok {b : Bkt} {k : Key} {v : Val} {b' : Bkt} :
    b.putLeaf k v = .ok b' ↔
      k ≠ [] ∧ (∀ sb, findEnt k b.entries ≠ some (.inr sb)) ∧
        b' = .mk b.seq (insertEntry k (.inl v) b.entries) := by
  unfold Bkt.putLeaf Bkt.getEnt
  by_cases hk : k = []
  · simp [hk]
  · rw [if_neg hk]
    cases hfe : findEnt k b.entries with
    | none => simp [hfe, hk, eq_comm]
    | some e =>
      cases e with
      | inl v' => simp [hfe, hk, eq_comm]
      | inr sb => simp [hfe]

theorem ensureSub_ok {b : Bkt} {k : Key} {b' : Bkt} :
    b.ensureSub k = .ok b' ↔
      k ≠ [] ∧ (∀ v, findEnt k b.entries ≠ some (.inl v)) ∧
        b' = .mk b.seq (ensEntries k b.entries) := by
  unfold Bkt.ensureSub Bkt.getEnt
  by_cases hk : k = []
  · simp [hk]
  · rw [if_neg hk]
    cases hfe : findEnt k b.entries with
    | none => simp [ensEntries, hfe, hk, eq_comm]
    | some e =>
      cases e with
      | inl v' => simp [hfe, hk]
      | inr sb => simp [ensEntries, hfe, hk, Bkt.eta, eq_comm]

theorem delete_ok {b : Bkt} {k : Key} {b' : Bkt} :
    b.delete k = .ok b' ↔
      (∀ sb, findEnt k b.entries ≠ some (.inr sb)) ∧
        b' = .mk b.seq (b.entries.filter (fun p => p.1 ≠ k)) := by
  unfold Bkt.delete Bkt.getEnt
  cases hfe : findEnt k b.entries with
  | none => simp [hfe, eq_comm]
  | some e =>
    cases e with
    | inl v' => simp [hfe, eq_comm]
    | inr sb => simp [hfe]

/-! ### The db.go API

Each exported operation of `db.go` runs inside one atomic bolt transaction
(`d.update` / `d.db.View`), so it is embedded as a pure function on
`Store`; a returned error rolls the write transaction back, so no state is
returned with an error.  The error short-circuiting of the `tx`/`bucket`
wrapper makes the body equivalent to stopping at the first failing
operation, which `Except` binding renders; the wrapper itself is verified
separately below. -/

/-- `validate(start, end)` from db.go (lines 23-35).  `end` is renamed `e`
(`end` is a Lean keyword); the error constructors carry the same integers
the `fmt.Errorf` messages format. -/
def validate (start e : Int) : Option Err :=
  if start < 0 then some (.invalidStart start)
  else if e < -1 then some (.invalidEnd e)
  else if e ≥ 0 ∧ start > e then some (.invalidRange start e)
  else none

/-- `(d *DB) CreateBuild` (db.go lines 190-226), field by field:
`b := tx.CreateBucketIfNotExists(buildBucket)`; `buildID := b.NextSequence()`;
`b.Put(itob(buildID), gob(build))`; `tx.CreateBucketIfNotExists(shaBucket)`
(result discarded); `b.CreateBucketIfNotExists([]byte(build.CommitSHA))` —
note the receiver is still `b`, the *build* bucket; `commitID :=
b.NextSequence()` — again the build bucket's counter; `b.Put(itob(commitID),
itob(build.ID))`; then the ref index under `refBucket`/`itob(type)`/`ref`;
finally the empty marker in `pendingBucket` under `itob(buildID)`. -/
def DB.CreateBuild (t : BuildType) (cloneURL ref commitSHA : String)
    (s : Store) : Except Err (BuildRecord × Store) := do
  let bb := s.build.getD Bkt.empty
  let (buildID, bb) := bb.nextSeq
  let build : BuildRecord :=
    { ID := buildID, T := t, CloneURL := cloneURL, Ref := ref,
      CommitSHA := commitSHA, Status := .queued }
  let bb ← bb.putLeaf (itob buildID) (.gobBuild build)
  let shaTop := s.sha.getD Bkt.empty
  let bb ← bb.ensureSub (strKey commitSHA)
  let (commitID, bb) := bb.nextSeq
  let bb ← bb.putLeaf (itob commitID) (.bytes (itob buildID))
  let rb := s.ref.getD Bkt.empty
  let rb ← rb.ensureSub (itob t)
  let tb := (rb.getSub (itob t)).getD Bkt.empty
  let tb ← tb.ensureSub (strKey ref)
  let nb := (tb.getSub (strKey ref)).getD Bkt.empty
  let (refID, nb) := nb.nextSeq
  let nb ← nb.putLeaf (itob refID) (.bytes (itob buildID))
  let tb := tb.putSub (strKey ref) nb
  let rb := rb.putSub (itob t) tb
  let pb := s.pending.getD Bkt.empty
  let pb ← pb.putLeaf (itob buildID) (.bytes [])
  return (build,
    { build := some bb, pending := some pb, sha := some shaTop,
      ref := some rb })

/-- `(d *DB) Build(id)` (db.go lines 229-251): raw `View`; missing build
bucket and missing key are errors; bolt `Get` returns nil both for an
absent key and for a key holding a sub-bucket; decoding a non-record value
is a gob error. -/
def DB.Build (id : Nat) (s : Store) : Except Err BuildRecord :=
  match s.build with
  | none => .error .noBuildBucket
  | some bb =>
    match bb.getVal (itob id) with
    | none => .error (.idNotExist id)
    | some (.bytes _) => .error .gobDecode
    | some (.gobBuild r) => .ok r

/-- `(d *DB) idsToBuilds` (db.go lines 253-264): hydrate ids via `Build`,
stopping at the first error. -/
def DB.idsToBuilds (s : Store) (ids : List Nat) : Except Err (List BuildRecord) :=
  ids.mapM (fun id => DB.Build id s)

/-- `(d *DB) pendingBuilds` (db.go lines 278-297): full forward cursor scan
of the pending bucket, `btoi` of every key; empty if the bucket does not
exist. -/
def DB.pendingBuilds (s : Store) : List Nat :=
  match s.pending with
  | none => []
  | some pb => pb.entries.map (fun p => btoi p.1)

/-- `(d *DB) PendingBuilds` (db.go lines 266-276). -/
def DB.PendingBuilds (s : Store) : Except Err (List BuildRecord) :=
  DB.idsToBuilds s (DB.pendingBuilds s)

/-- `(d *DB) Refs(t)` (db.go lines 299-323): the keys under the
`ref`/`itob(type)` bucket whose cursor value is nil, i.e. the sub-bucket
keys (the ref names, returned by Go as strings, here as byte keys). -/
def DB.Refs (t : BuildType) (s : Store) : List Key :=
  match s.ref with
  | none => []
  | some rb =>
    match rb.getSub (itob t) with
    | none => []
    | some tb => (tb.entries.filter (fun p => p.2.isRight)).map (fun p => p.1)

/-- The value the ref/sha cursor loops read for an entry: the leaf's bytes.
For a sub-bucket the cursor yields nil; `btoi` of nil would panic in Go,
and a record leaf would feed gob bytes to `btoi`; neither occurs in any
state the code can build (those buckets only ever hold 8-byte leaves), and
both are mapped to `[]` here. -/
def entBytes : Ent → List Nat
  | .inl (.bytes bs) => bs
  | _ => []

/-- The cursor loop of `refBuilds` (db.go line 363): walk backwards from
the last entry while `end == -1 || len(ids) < diff`. -/
def collectRef (e diff : Int) : List (Key × Ent) → List Nat → List Nat
  | [], acc => acc
  | (_, v) :: rest, acc =>
    if e = -1 ∨ (acc.length : Int) < diff then
      collectRef e diff rest (acc ++ [btoi (entBytes v)])
    else acc

/-- `(d *DB) refBuilds` (db.go lines 346-372): `diff := end - start`; any
missing bucket level yields an empty result. -/
def DB.refBuilds (t : BuildType) (ref : String) (start e : Int)
    (s : Store) : List Nat :=
  match s.ref with
  | none => []
  | some rb =>
    match rb.getSub (itob t) with
    | none => []
    | some tb =>
      match tb.getSub (strKey ref) with
      | none => []
      | some nb => collectRef e (e - start) nb.entries.reverse []

/-- `(d *DB) RefBuilds` (db.go lines 328-344): validate, explicit no-op on
`start == end`, then hydrate the collected ids. -/
def DB.RefBuilds (t : BuildType) (ref : String) (start e : Int)
    (s : Store) : Except Err (List BuildRecord) :=
  match validate start e with
  | some er => .error er
  | none =>
    if start = e then .ok []
    else DB.idsToBuilds s (DB.refBuilds t ref start e s)

/-- `(d *DB) shaBuilds` (db.go lines 384-407): forward scan of the
`sha`/`[]byte(sha)` sub-bucket; empty if either level is missing. -/
def DB.shaBuilds (sha : String) (s : Store) : List Nat :=
  match s.sha with
  | none => []
  | some sb =>
    match sb.getSub (strKey sha) with
    | none => []
    | some b => b.entries.map (fun p => btoi (entBytes p.2))

/-- `(d *DB) SHABuilds` (db.go lines 374-382). -/
def DB.SHABuilds (sha : String) (s : Store) : Except Err (List BuildRecord) :=
  DB.idsToBuilds s (DB.shaBuilds sha s)

/-! ### The error-absorbing transaction wrapper (db.go lines 68-187)

The `tx`/`bucket` wrapper pairs the underlying bolt transaction with a
remembered error.  Every mutating method — `bucket.Put`, `bucket.Delete`,
`bucket.NextSequence`, `tx.CreateBucketIfNotExists`,
`bucket.CreateBucketIfNotExists` — follows one pattern: if `t.err` is
already set, return immediately without touching the store; otherwise run
the underlying bolt operation and store its error (if any) into `t.err`.
`dispatch` (lines 167-175) runs the transaction function and returns the
remembered error in preference to the function's own return value.

We model the handle as the underlying state paired with `Option Err`, and
an individual wrapped operation as a state transformer that can fail
(`σ → Except Err σ`), covering all five methods uniformly. -/

/-- The `tx` handle: underlying transaction state plus the remembered
first error (`tx.err`). -/
structure TxSt (σ : Type) where
  st : σ
  err : Option Err

/-- One wrapped store operation, the shared shape of `Put`, `Delete`,
`NextSequence` and `CreateBucketIfNotExists`: skip when an error is
remembered, otherwise run the bolt operation and remember its error. -/
def applyOp {σ : Type} (t : TxSt σ) (op : σ → Except Err σ) : TxSt σ :=
  match t.err with
  | some _ => t
  | none =>
    match op t.st with
    | .ok s' => { st := s', err := none }
    | .error e => { st := t.st, err := some e }

/-- Run a sequence of wrapped operations on a handle. -/
def runOps {σ : Type} (ops : List (σ → Except Err σ)) (t : TxSt σ) : TxSt σ :=
  ops.foldl applyOp t

/-- `dispatch` (db.go lines 167-175): run the transaction function on a
fresh handle; if the handle remembered an error, report that error,
otherwise report the function's own result. -/
def dispatch {σ : Type} (f : TxSt σ → TxSt σ × Option Err) (s : σ) :
    Option Err :=
  let r := f ⟨s, none⟩
  match r.1.err with
  | some e => some e
  | none => r.2

theorem runOps_of_err {σ : Type} (ops : List (σ → Except Err σ))
    (t : TxSt σ) (e : Err) (h : t.err = some e) : runOps ops t = t := by
  induction ops with
  | nil => rfl
  | cons op rest ih =>
    have : applyOp t op = t := by
      unfold applyOp
      rw [h]
    rw [runOps, List.foldl_cons, this]
    exact ih

theorem runOps_append {σ : Type} (ops₁ ops₂ : List (σ → Except Err σ))
    (t : TxSt σ) : runOps (ops₁ ++ ops₂) t = runOps ops₂ (runOps ops₁ t) :=
  List.foldl_append ..

/-! ### Canonical shape of a successful `CreateBuild` -/

def cbB0 (s : Store) : Bkt := s.build.getD Bkt.empty

def cbN (s : Store) : Nat := ((cbB0 s).seq + 1) % U64

def cbM (s : Store) : Nat := (cbN s + 1) % U64

def cbBuild (t : BuildType) (cu ref sha : String) (s : Store) : Build :=
  ⟨cbN s, t, cu, ref, sha, .queued⟩

def cbE1 (t : BuildType) (cu ref sha : String) (s : Store) :
    List (Key × Ent) :=
  insertEntry (itob (cbN s)) (.inl (.gobBuild (cbBuild t cu ref sha s)))
    (cbB0 s).entries

def cbE2 (t : BuildType) (cu ref sha : String) (s : Store) :
    List (Key × Ent) :=
  ensEntries (strKey sha) (cbE1 t cu ref sha s)

def cbE3 (t : BuildType) (cu ref sha : String) (s : Store) :
    List (Key × Ent) :=
  insertEntry (itob (cbM s)) (.inl (.bytes (itob (cbN s))))
    (cbE2 t cu ref sha s)

def cbR0 (s : Store) : Bkt := s.ref.getD Bkt.empty

def cbR1 (t : BuildType) (s : Store) : Bkt :=
  .mk (cbR0 s).seq (ensEntries (itob t) (cbR0 s).entries)

def cbT0 (t : BuildType) (s : Store) : Bkt :=
  ((cbR1 t s).getSub (itob t)).getD Bkt.empty

def cbT1 (t : BuildType) (ref : String) (s : Store) : Bkt :=
  .mk (cbT0 t s).seq (ensEntries (strKey ref) (cbT0 t s).entries)

def cbN0 (t : BuildType) (ref : String) (s : Store) : Bkt :=
  ((cbT1 t ref s).getSub (strKey ref)).getD Bkt.empty

def cbRho (t : BuildType) (ref : String) (s : Store) : Nat :=
  ((cbN0 t ref s).seq + 1) % U64

def cbN1 (t : BuildType) (ref : String) (s : Store) : Bkt :=
  .mk (cbRho t ref s)
    (insertEntry (itob (cbRho t ref s)) (.inl (.bytes (itob (cbN s))))
      (cbN0 t ref s).entries)

def cbT2 (t : BuildType) (ref : String) (s : Store) : Bkt :=
  (cbT1 t ref s).putSub (strKey ref) (cbN1 t ref s)

def cbR2 (t : BuildType) (ref : String) (s : Store) : Bkt :=
  (cbR1 t s).putSub (itob t) (cbT2 t ref s)

def cbP0 (s : Store) : Bkt := s.pending.getD Bkt.empty

def cbP1 (s : Store) : Bkt :=
  .mk (cbP0 s).seq
    (insertEntry (itob (cbN s)) (.inl (.bytes [])) (cbP0 s).entries)

def cbStore (t : BuildType) (cu ref sha : String) (s : Store) : Store :=
  ⟨some (.mk (cbM s) (cbE3 t cu ref sha s)), some (cbP1 s),
   some (s.sha.getD Bkt.empty), some (cbR2 t ref s)⟩

/-- The side conditions under which the write sequence of `CreateBuild`
goes through. -/
structure CBConds (t : BuildType) (cu ref sha : String) (s : Store) : Prop where
  sha_ne : strKey sha ≠ []
  sha_noleaf : ∀ v, findEnt (strKey sha) (cbE1 t cu ref sha s) ≠ some (.inl v)
  rec_nosub : ∀ sb, findEnt (itob (cbN s)) (cbB0 s).entries ≠ some (.inr sb)
  com_nosub : ∀ sb, findEnt (itob (cbM s)) (cbE2 t cu ref sha s) ≠ some (.inr sb)
  rt_noleaf : ∀ v, findEnt (itob t) (cbR0 s).entries ≠ some (.inl v)
  ref_ne : strKey ref ≠ []
  ref_noleaf : ∀ v, findEnt (strKey ref) (cbT0 t s).entries ≠ some (.inl v)
  rid_nosub : ∀ sb, findEnt (itob (cbRho t ref s)) (cbN0 t ref s).entries ≠ some (.inr sb)
  pend_nosub : ∀ sb, findEnt (itob (cbN s)) (cbP0 s).entries ≠ some (.inr sb)

theorem createBuild_ok {t : BuildType} {cu ref sha : String} {s : Store}
    {b : Build} {s' : Store}
    (h : DB.CreateBuild t cu ref sha s = .ok (b, s')) :
    b = cbBuild t cu ref sha s ∧ s' = cbStore t cu ref sha s ∧
      CBConds t cu ref sha s := by
  unfold DB.CreateBuild at h
  simp only [bind, Except.bind, Bkt.nextSeq, pure, Except.pure,
    Bkt.seq, Bkt.entries] at h
  split at h
  next heq1 => exact Except.noConfusion h
  next bb1 heq1 =>
  obtain ⟨-, hc1, rfl⟩ := putLeaf_ok.mp heq1
  split at h
  next heq2 => exact Except.noConfusion h
  next bb2 heq2 =>
  obtain ⟨hc2a, hc2b, rfl⟩ := ensureSub_ok.mp heq2
  simp only [Bkt.seq, Bkt.entries] at h
  split at h
  next heq3 => exact Except.noConfusion h
  next bb3 heq3 =>
  obtain ⟨-, hc3, rfl⟩ := putLeaf_ok.mp heq3
  simp only [Bkt.seq, Bkt.entries] at h
  split at h
  next heq4 => exact Except.noConfusion h
  next rb1 heq4 =>
  obtain ⟨-, hc4, rfl⟩ := ensureSub_ok.mp heq4
  split at h
  next heq5 => exact Except.noConfusion h
  next tb1 heq5 =>
  obtain ⟨hc5a, hc5b, rfl⟩ := ensureSub_ok.mp heq5
  simp only [Bkt.seq, Bkt.entries] at h
  split at h
  next heq6 => exact Except.noConfusion h
  next nb1 heq6 =>
  obtain ⟨-, hc6, rfl⟩ := putLeaf_ok.mp heq6
  simp only [Bkt.seq, Bkt.entries] at h
  split at h
  next heq7 => exact Except.noConfusion h
  next pb1 heq7 =>
  obtain ⟨-, hc7, rfl⟩ := putLeaf_ok.mp heq7
  simp only [Bkt.seq, Bkt.entries] at h
  injection h with h
  injection h with hb hs
  subst hb
  subst hs
  exact ⟨rfl, rfl, ⟨hc2a, hc2b, hc1, hc3, hc4, hc5a, hc5b, hc6, hc7⟩⟩

/-! ### Lemmas about `ensEntries` and derived lookups -/

theorem findEnt_ens_ne {k k' : Key} (hne : k' ≠ k)
    (l : List (Key × Ent)) : findEnt k' (ensEntries k l) = findEnt k' l := by
  unfold ensEntries
  cases hfe : findEnt k l with
  | none => exact findEnt_insert_ne k k' _ hne l
  | some e' =>
    cases e' with
    | inl v => exact findEnt_insert_ne k k' _ hne l
    | inr sb => rfl

theorem ens_sub {k : Key} {l : List (Key × Ent)}
    (hnl : ∀ v, findEnt k l ≠ some (.inl v)) :
    ∃ sb, findEnt k (ensEntries k l) = some (.inr sb) := by
  unfold ensEntries
  cases hfe : findEnt k l with
  | none => exact ⟨Bkt.empty, findEnt_insert_self k _ l⟩
  | some e' =>
    cases e' with
    | inl v => exact absurd hfe (hnl v)
    | inr sb => exact ⟨sb, hfe⟩

theorem mem_ens {p : Key × Ent} {k : Key} {l : List (Key × Ent)}
    (h : p ∈ ensEntries k l) : p = (k, .inr Bkt.empty) ∨ p ∈ l := by
  unfold ensEntries at h
  cases hfe : findEnt k l with
  | none =>
    rw [hfe] at h
    exact mem_insertEntry k _ h
  | some e' =>
    cases e' with
    | inl v =>
      rw [hfe] at h
      exact mem_insertEntry k _ h
    | inr sb =>
      rw [hfe] at h
      exact Or.inr h

theorem ens_mem_of_ne {p : Key × Ent} {k : Key} {l : List (Key × Ent)}
    (hne : p.1 ≠ k) (h : p ∈ l) : p ∈ ensEntries k l := by
  unfold ensEntries
  cases hfe : findEnt k l with
  | none => exact insertEntry_mem_of_ne k _ hne h
  | some e' =>
    cases e' with
    | inl v => exact insertEntry_mem_of_ne k _ hne h
    | inr sb => exact h

/-! ### Abstraction functions over a store -/

/-- The build bucket's sequence counter (0 when absent). -/
def bseq (s : Store) : Nat :=
  match s.build with
  | none => 0
  | some bb => bb.seq

/-- The decoded build record stored under `itob id`, when there is one. -/
def recordOf (s : Store) (id : Nat) : Option Build :=
  match s.build with
  | none => none
  | some bb =>
    match bb.getVal (itob id) with
    | some (.gobBuild r) => some r
    | _ => none

/-- The current status of build `id`: the `Status` field of its record. -/
def statusOf (s : Store) (id : Nat) : Option Status :=
  (recordOf s id).map Build.Status

/-- Whether a status keeps a build in the pending index (spec §3). -/
def Status.isPending : Status → Bool
  | .queued => true
  | .running => true
  | _ => false

/-- The keys of the pending bucket, in cursor order. -/
def pendingKeys (s : Store) : List Key :=
  match s.pending with
  | none => []
  | some pb => pb.entries.map Prod.fst

/-- The `ref`/`itob(type)` bucket. -/
def refTB (s : Store) (t : BuildType) : Option Bkt :=
  match s.ref with
  | none => none
  | some rb => rb.getSub (itob t)

/-- The `ref`/`itob(type)`/`[]byte(ref)` bucket. -/
def refNB (s : Store) (t : BuildType) (ref : String) : Option Bkt :=
  match refTB s t with
  | none => none
  | some tb => tb.getSub (strKey ref)

/-- The build ids recorded in the ref index for `(t, ref)`, oldest first. -/
def refIds (s : Store) (t : BuildType) (ref : String) : List Nat :=
  match refNB s t ref with
  | none => []
  | some nb => nb.entries.map (fun p => btoi (entBytes p.2))

/-! ### Arithmetic facts about the allocated ids -/

theorem cbB0_seq (s : Store) : (cbB0 s).seq = bseq s := by
  unfold cbB0 bseq
  cases s.build <;> rfl

theorem cbN_lt (s : Store) : cbN s < U64 :=
  Nat.mod_lt _ (by norm_num [U64])

theorem cbM_lt (s : Store) : cbM s < U64 :=
  Nat.mod_lt _ (by norm_num [U64])

theorem cbRho_lt (t : BuildType) (ref : String) (s : Store) :
    cbRho t ref s < U64 :=
  Nat.mod_lt _ (by norm_num [U64])

theorem cbN_ne_cbM (s : Store) : cbN s ≠ cbM s := by
  have h1 : cbN s < 18446744073709551616 := cbN_lt s
  have h2 : cbM s = (cbN s + 1) % 18446744073709551616 := rfl
  omega

theorem itob_ne_of_ne {a b : Nat} (ha : a < U64) (hb : b < U64)
    (h : a ≠ b) : itob a ≠ itob b :=
  fun hc => h (itob_inj ha hb hc)

theorem cbN_eq {s : Store} (hw : bseq s + 1 < U64) : cbN s = bseq s + 1 := by
  unfold cbN
  rw [cbB0_seq]
  exact Nat.mod_eq_of_lt hw

theorem cbM_eq {s : Store} (hw : bseq s + 2 < U64) : cbM s = bseq s + 2 := by
  have h1 : cbN s = bseq s + 1 := cbN_eq (by omega)
  unfold cbM
  rw [h1]
  exact Nat.mod_eq_of_lt hw

/-! ### The status-transition operation and reachability

Modelled from the spec: the status-transition operation of §4.4 belongs to
this repository but its source file is not under `src/` (only the storage
layer is).  Per §4.4, each transition is one atomic transaction that (a)
rewrites the Build record's `Status` field and (b) on a transition to a
terminal status deletes the pending-bucket entry for that id in the same
transaction; `Queued → Running` leaves the pending entry in place. -/

/-- Modelled from the spec: §4.4 "Status Transition" — atomically rewrite
the record's `Status`; on a terminal transition also delete the pending
entry.  The transition source file is not under `src/`. -/
def setStatus (id : Nat) (st : Status) (s : Store) : Except Err Store :=
  match s.build with
  | none => .error .noBuildBucket
  | some bb =>
    match bb.getVal (itob id) with
    | some (.gobBuild r) => do
      let bb ← bb.putLeaf (itob id) (.gobBuild { r with Status := st })
      let s' : Store := { s with build := some bb }
      if st.isTerminal then
        match s'.pending with
        | none => pure s'
        | some pb => do
          let pb ← pb.delete (itob id)
          pure { s' with pending := some pb }
      else pure s'
    | _ => .error (.idNotExist id)

/-- The arguments of one `CreateBuild` call, for the reachability trace. -/
structure CArgs where
  t : BuildType
  cloneURL : String
  ref : String
  sha : String

/-- Reachable store states, together with the trace of successful
`CreateBuild` calls that produced them.  Status transitions follow the
spec's state machine (§4.4): a worker claims a Queued build
(`Queued → Running`), and a finished build moves from Running to exactly
one terminal status.  Ids are `uint64` values, hence `id < U64`. -/
inductive Reach : List CArgs → Store → Prop where
  | init : Reach [] Store.empty
  | create {tr : List CArgs} {s : Store} {a : CArgs} {b : Build} {s' : Store} :
      Reach tr s →
      DB.CreateBuild a.t a.cloneURL a.ref a.sha s = .ok (b, s') →
      Reach (tr ++ [a]) s'
  | claim {tr : List CArgs} {s : Store} {id : Nat} {s' : Store} :
      Reach tr s → id < U64 →
      statusOf s id = some .queued → setStatus id .running s = .ok s' →
      Reach tr s'
  | finish {tr : List CArgs} {s : Store} {id : Nat} {st : Status} {s' : Store} :
      Reach tr s → id < U64 →
      statusOf s id = some .running → st.isTerminal = true →
      setStatus id st s = .ok s' → Reach tr s'

/-- The inductive invariant of reachable stores, relative to the trace of
creations.  All clauses are guarded by the (physically unreachable)
no-overflow bound on the number of creations: two sequence allocations per
create keep the build counter at `2 * tr.length`. -/
structure InvC (tr : List CArgs) (s : Store) : Prop where
  bseq_eq : bseq s = 2 * tr.length
  rec_id : ∀ id r, id < U64 → recordOf s id = some r →
    r.ID = id ∧ 1 ≤ id ∧ id ≤ 2 * tr.length
  bkeys : ∀ p ∈ (s.build.getD Bkt.empty).entries,
    (∃ j, 1 ≤ j ∧ j ≤ 2 * tr.length ∧ p.1 = itob j ∧ ∃ v, p.2 = Sum.inl v) ∨
      (∃ sb, p.2 = Sum.inr sb)
  sha_empty : s.sha = none ∨ s.sha = some Bkt.empty
  pend_keys : ∀ k ∈ pendingKeys s, ∃ j r, k = itob j ∧ j < U64 ∧
    recordOf s j = some r ∧ r.Status.isPending = true
  pend_complete : ∀ id r, id < U64 → recordOf s id = some r →
    r.Status.isPending = true → itob id ∈ pendingKeys s
  pend_sorted : List.Pairwise (· < ·) (DB.pendingBuilds s)
  ref_seq : ∀ t ref nb, refNB s t ref = some nb → nb.seq ≤ tr.length
  ref_ents : ∀ t ref nb, refNB s t ref = some nb → ∀ p ∈ nb.entries,
    ∃ i v, p.1 = itob i ∧ 1 ≤ i ∧ i ≤ nb.seq ∧
      p.2 = Sum.inl (.bytes (itob v)) ∧ 1 ≤ v ∧ v ≤ 2 * tr.length ∧
      ∃ r, recordOf s v = some r
  ref_sorted : ∀ t ref, List.Pairwise (· < ·) (refIds s t ref)
  refT_trace : ∀ t tb, refTB s t = some tb → ∃ a ∈ tr, itob a.t = itob t
  refN_trace : ∀ t ref nb, refNB s t ref = some nb →
    ∃ a ∈ tr, itob a.t = itob t ∧ a.ref = ref

/-- The invariant, guarded by the no-overflow bound. -/
def StoreInv (tr : List CArgs) (s : Store) : Prop :=
  2 * tr.length < U64 → InvC tr s

/-! ### How `cbStore` looks through the abstraction functions -/

theorem bseq_cbStore (t : BuildType) (cu ref sha : String) (s : Store) :
    bseq (cbStore t cu ref sha s) = cbM s := rfl

theorem strKey_sha_ne_itob_cbN {t : BuildType} {cu ref sha : String}
    {s : Store} (hc : CBConds t cu ref sha s) :
    strKey sha ≠ itob (cbN s) := by
  intro he
  apply hc.sha_noleaf (.gobBuild (cbBuild t cu ref sha s))
  rw [he, cbE1]
  exact findEnt_insert_self _ _ _

theorem recordOf_entries (s : Store) (j : Nat) :
    recordOf s j =
      match findEnt (itob j) (cbB0 s).entries with
      | some (.inl (.gobBuild r)) => some r
      | _ => none := by
  unfold recordOf cbB0 Bkt.getVal Bkt.getEnt
  cases s.build with
  | none => simp [Bkt.empty, Bkt.entries, findEnt]
  | some bb =>
    simp only [Option.getD]
    cases findEnt (itob j) bb.entries with
    | none => rfl
    | some e => cases e with
      | inl v => cases v <;> rfl
      | inr sb => rfl

theorem recordOf_cbStore_entries (t : BuildType) (cu ref sha : String)
    (s : Store) (j : Nat) :
    recordOf (cbStore t cu ref sha s) j =
      match findEnt (itob j) (cbE3 t cu ref sha s) with
      | some (.inl (.gobBuild r)) => some r
      | _ => none := by
  have h := recordOf_entries (cbStore t cu ref sha s) j
  simpa [cbB0, cbStore, Bkt.entries] using h

theorem recordOf_cb_self {t : BuildType} {cu ref sha : String} {s : Store}
    (hc : CBConds t cu ref sha s) :
    recordOf (cbStore t cu ref sha s) (cbN s) =
      some (cbBuild t cu ref sha s) := by
  have hnm : itob (cbN s) ≠ itob (cbM s) :=
    itob_ne_of_ne (cbN_lt s) (cbM_lt s) (cbN_ne_cbM s)
  have hsha : itob (cbN s) ≠ strKey sha :=
    fun he => strKey_sha_ne_itob_cbN hc he.symm
  rw [recordOf_cbStore_entries, cbE3, findEnt_insert_ne _ _ _ hnm, cbE2,
    findEnt_ens_ne hsha, cbE1, findEnt_insert_self]

theorem recordOf_cb_m {t : BuildType} {cu ref sha : String} {s : Store} :
    recordOf (cbStore t cu ref sha s) (cbM s) = none := by
  rw [recordOf_cbStore_entries, cbE3, findEnt_insert_self]

theorem recordOf_cb_frame {t : BuildType} {cu ref sha : String} {s : Store}
    (hc : CBConds t cu ref sha s) {j : Nat} (hj : j < U64)
    (hjn : j ≠ cbN s) (hjm : j ≠ cbM s) :
    recordOf (cbStore t cu ref sha s) j = recordOf s j := by
  have hn : itob j ≠ itob (cbN s) := itob_ne_of_ne hj (cbN_lt s) hjn
  have hm : itob j ≠ itob (cbM s) := itob_ne_of_ne hj (cbM_lt s) hjm
  have hE1 : findEnt (itob j) (cbE1 t cu ref sha s) =
      findEnt (itob j) (cbB0 s).entries := by
    rw [cbE1, findEnt_insert_ne _ _ _ hn]
  rw [recordOf_cbStore_entries, recordOf_entries, cbE3,
    findEnt_insert_ne _ _ _ hm]
  by_cases hks : strKey sha = itob j
  · have hnoleaf := hc.sha_noleaf
    rw [hks] at hnoleaf
    rw [cbE2, hks]
    unfold ensEntries
    cases hfe : findEnt (itob j) (cbE1 t cu ref sha s) with
    | none =>
      rw [findEnt_insert_self]
      rw [hE1] at hfe
      rw [hfe]
    | some e =>
      cases e with
      | inl v => exact absurd hfe (hnoleaf v)
      | inr sb =>
        rw [hE1] at hfe
        simp [hE1, hfe]
  · rw [cbE2, findEnt_ens_ne (fun he => hks he.symm), hE1]

theorem pendingKeys_cbP0 (s : Store) :
    (cbP0 s).entries.map Prod.fst = pendingKeys s := by
  unfold cbP0 pendingKeys
  cases s.pending <;> rfl

theorem pendingBuilds_eq (s : Store) :
    DB.pendingBuilds s = (pendingKeys s).map btoi := by
  unfold DB.pendingBuilds pendingKeys
  cases s.pending with
  | none => rfl
  | some pb => simp [List.map_map]

theorem pendingKeys_cbStore (t : BuildType) (cu ref sha : String) (s : Store) :
    pendingKeys (cbStore t cu ref sha s) =
      (insertEntry (itob (cbN s)) (.inl (.bytes [])) (cbP0 s).entries).map
        Prod.fst := rfl

theorem refTB_cb_same (t : BuildType) (cu ref sha : String) (s : Store)
    {t' : BuildType} (ht : itob t' = itob t) :
    refTB (cbStore t cu ref sha s) t' = some (cbT2 t ref s) := by
  unfold refTB cbStore cbR2 Bkt.putSub Bkt.getSub Bkt.getEnt
  simp only [Bkt.entries]
  rw [ht, findEnt_insert_self]

theorem refTB_cb_other (t : BuildType) (cu ref sha : String) (s : Store)
    {t' : BuildType} (ht : itob t' ≠ itob t) :
    refTB (cbStore t cu ref sha s) t' = refTB s t' := by
  unfold refTB cbStore cbR2 Bkt.putSub Bkt.getSub Bkt.getEnt cbR1 cbR0
  simp only [Bkt.entries]
  rw [findEnt_insert_ne _ _ _ ht, findEnt_ens_ne ht]
  cases s.ref with
  | none => simp [Bkt.empty, Bkt.entries, findEnt]
  | some rb => rfl

theorem refNB_cb_same {t : BuildType} {cu ref sha : String} {s : Store}
    {t' : BuildType} {ref' : String} (ht : itob t' = itob t)
    (hr : strKey ref' = strKey ref) :
    refNB (cbStore t cu ref sha s) t' ref' = some (cbN1 t ref s) := by
  unfold refNB
  rw [refTB_cb_same t cu ref sha s ht]
  unfold cbT2 Bkt.putSub Bkt.getSub Bkt.getEnt
  simp only [Bkt.entries]
  rw [hr, findEnt_insert_self]

theorem refNB_cb_otherT {t : BuildType} {cu ref sha : String} {s : Store}
    {t' : BuildType} {ref' : String} (ht : itob t' ≠ itob t) :
    refNB (cbStore t cu ref sha s) t' ref' = refNB s t' ref' := by
  unfold refNB
  rw [refTB_cb_other t cu ref sha s ht]

theorem Bkt.seq_mk (sq : Nat) (l : List (Key × Ent)) :
    (Bkt.mk sq l).seq = sq := rfl

theorem Bkt.entries_mk (sq : Nat) (l : List (Key × Ent)) :
    (Bkt.mk sq l).entries = l := rfl

theorem cbT0_eq {t : BuildType} {cu ref sha : String} {s : Store}
    (hc : CBConds t cu ref sha s) :
    cbT0 t s = (refTB s t).getD Bkt.empty := by
  have hnl := hc.rt_noleaf
  cases hsr : s.ref with
  | none =>
    have h0 : cbR0 s = Bkt.empty := by unfold cbR0; rw [hsr]; rfl
    unfold cbT0 cbR1 refTB
    rw [h0, hsr]
    simp [ensEntries, findEnt, insertEntry, Bkt.empty, Bkt.entries_mk,
      Bkt.getSub, Bkt.getEnt]
  | some rb =>
    obtain ⟨rseq, rents⟩ := rb
    have h0 : cbR0 s = Bkt.mk rseq rents := by unfold cbR0; rw [hsr]; rfl
    unfold cbT0 cbR1 refTB
    rw [h0, hsr]
    rw [h0] at hnl
    simp only [Bkt.entries_mk] at hnl
    unfold Bkt.getSub Bkt.getEnt ensEntries
    simp only [Bkt.entries_mk]
    cases hfe : findEnt (itob t) rents with
    | none =>
      rw [findEnt_insert_self]
      simp
    | some e =>
      cases e with
      | inl v => exact absurd hfe (hnl v)
      | inr sb => simp [hfe]

theorem refNB_cb_sameT_otherR {t : BuildType} {cu ref sha : String}
    {s : Store} (hc : CBConds t cu ref sha s) {t' : BuildType} {ref' : String}
    (ht : itob t' = itob t) (hr : strKey ref' ≠ strKey ref) :
    refNB (cbStore t cu ref sha s) t' ref' = refNB s t' ref' := by
  unfold refNB
  rw [refTB_cb_same t cu ref sha s ht]
  unfold cbT2 Bkt.putSub Bkt.getSub Bkt.getEnt cbT1
  simp only [Bkt.entries]
  rw [findEnt_insert_ne _ _ _ hr, findEnt_ens_ne hr]
  have h0 := cbT0_eq hc
  have ht' : refTB s t' = refTB s t := by
    unfold refTB
    cases s.ref with
    | none => rfl
    | some rb =>
      unfold Bkt.getSub Bkt.getEnt
      rw [ht]
  rw [ht']
  cases htb : refTB s t with
  | none =>
    rw [htb] at h0
    rw [h0]
    simp [Bkt.empty, Bkt.entries, findEnt]
  | some tb =>
    rw [htb] at h0
    rw [h0]
    rfl

theorem Refs_refTB (t : BuildType) (s : Store) :
    DB.Refs t s =
      match refTB s t with
      | none => []
      | some tb => (tb.entries.filter (fun p => p.2.isRight)).map
          (fun p => p.1) := by
  unfold DB.Refs refTB
  cases s.ref <;> rfl

theorem shaBuilds_empty {s : Store}
    (h : s.sha = none ∨ s.sha = some Bkt.empty) (sha : String) :
    DB.shaBuilds sha s = [] := by
  unfold DB.shaBuilds
  rcases h with h | h <;> rw [h]
  simp [Bkt.getSub, Bkt.getEnt, Bkt.empty, Bkt.entries, findEnt]

/-! ### Canonical shape of a successful status transition -/

theorem setStatus_ok {id : Nat} {st : Status} {s s' : Store}
    (h : setStatus id st s = .ok s') :
    ∃ bb r, s.build = some bb ∧ bb.getVal (itob id) = some (.gobBuild r) ∧
      (let bb' : Bkt := .mk bb.seq
        (insertEntry (itob id) (.inl (.gobBuild { r with Status := st }))
          bb.entries)
      (st.isTerminal = false ∧ s' = { s with build := some bb' }) ∨
        (st.isTerminal = true ∧ s.pending = none ∧
          s' = { s with build := some bb' }) ∨
        (∃ pb, st.isTerminal = true ∧ s.pending = some pb ∧
          (∀ sb, findEnt (itob id) pb.entries ≠ some (.inr sb)) ∧
          s' =
            { s with
              build := some bb',
              pending := some (.mk pb.seq
                (pb.entries.filter (fun p => p.1 ≠ itob id))) })) := by
  unfold setStatus at h
  split at h
  next heqb => exact Except.noConfusion h
  next bb heqb =>
  split at h
  next r heqr =>
    refine ⟨bb, r, heqb, heqr, ?_⟩
    simp only [bind, Except.bind, pure, Except.pure] at h
    split at h
    next heq1 => exact Except.noConfusion h
    next bb1 heq1 =>
    obtain ⟨-, hc1, rfl⟩ := putLeaf_ok.mp heq1
    by_cases hterm : st.isTerminal = true
    · rw [if_pos hterm] at h
      split at h
      next heqp =>
        injection h with h
        exact Or.inr (Or.inl ⟨hterm, heqp, h.symm⟩)
      next pb heqp =>
        split at h
        next heq2 => exact Except.noConfusion h
        next pb1 heq2 =>
        obtain ⟨hc2, rfl⟩ := delete_ok.mp heq2
        injection h with h
        exact Or.inr (Or.inr ⟨pb, hterm, heqp, hc2, h.symm⟩)
    · rw [if_neg hterm] at h
      injection h with h
      exact Or.inl ⟨Bool.not_eq_true _ ▸ Bool.of_not_eq_true hterm, h.symm⟩
  next => exact Except.noConfusion h

/-! ### Small helpers for the preservation proofs -/

theorem not_pending_of_terminal {st : Status} (h : st.isTerminal = true) :
    st.isPending = false := by
  cases st <;> first | rfl | exact absurd h (by decide)

theorem map_fst_filter_ne (k : Key) (l : List (Key × Ent)) :
    (l.filter (fun p => p.1 ≠ k)).map Prod.fst =
      (l.map Prod.fst).filter (fun k' => k' ≠ k) := by
  induction l with
  | nil => rfl
  | cons p rest ih =>
    simp only [ne_eq, decide_not] at ih ⊢
    by_cases hp : p.1 = k
    · simp [hp, ih]
    · simp [hp, ih]

theorem getVal_some_iff {b : Bkt} {k : Key} {v : Val} :
    b.getVal k = some v ↔ findEnt k b.entries = some (.inl v) := by
  unfold Bkt.getVal Bkt.getEnt
  cases hfe : findEnt k b.entries with
  | none => simp
  | some e =>
    cases e with
    | inl v' => simp
    | inr sb => simp

theorem cbB0_of_some {s : Store} {bb : Bkt} (hb : s.build = some bb) :
    cbB0 s = bb := by
  unfold cbB0
  rw [hb]
  rfl

/-- `recordOf` of a store whose build bucket is known. -/
theorem recordOf_some_build {s : Store} {bb : Bkt} (hb : s.build = some bb)
    (j : Nat) :
    recordOf s j =
      match findEnt (itob j) bb.entries with
      | some (.inl (.gobBuild r)) => some r
      | _ => none := by
  rw [recordOf_entries, cbB0_of_some hb]

theorem recordOf_of_build {s : Store} {bb : Bkt} {id : Nat} {r : Build}
    (hb : s.build = some bb) (hv : bb.getVal (itob id) = some (.gobBuild r)) :
    recordOf s id = some r := by
  rw [recordOf_some_build hb, getVal_some_iff.mp hv]

theorem refNB_congr {s s' : Store} (h : s'.ref = s.ref) (t : BuildType)
    (ref : String) : refNB s' t ref = refNB s t ref := by
  unfold refNB refTB
  rw [h]

theorem refTB_congr {s s' : Store} (h : s'.ref = s.ref) (t : BuildType) :
    refTB s' t = refTB s t := by
  unfold refTB
  rw [h]

theorem refIds_congr {s s' : Store} (h : s'.ref = s.ref) (t : BuildType)
    (ref : String) : refIds s' t ref = refIds s t ref := by
  unfold refIds
  rw [refNB_congr h]

theorem pendingKeys_congr {s s' : Store} (h : s'.pending = s.pending) :
    pendingKeys s' = pendingKeys s := by
  unfold pendingKeys
  rw [h]

/-! ### Preservation of the invariant by a claim transition -/

theorem invC_claim {tr : List CArgs} {s : Store} {id : Nat} {s' : Store}
    (inv : InvC tr s) (hw : 2 * tr.length < U64) (hid : id < U64)
    (hq : statusOf s id = some .queued)
    (h : setStatus id .running s = .ok s') : InvC tr s' := by
  obtain ⟨bb, r, hb, hv, hrest⟩ := setStatus_ok h
  rcases hrest with ⟨-, hs'⟩ | ⟨habs, -⟩ | ⟨pb, habs, -⟩
  case intro.intro.intro.intro.inr.inl.intro => exact absurd habs (by decide)
  case intro.intro.intro.intro.inr.inr.intro.intro =>
    exact absurd habs (by decide)
  have hrec : recordOf s id = some r := recordOf_of_build hb hv
  have hrst : r.Status = Status.queued := by
    unfold statusOf at hq
    rw [hrec] at hq
    simpa using hq
  subst hs'
  set E' := insertEntry (itob id)
    (Sum.inl (Val.gobBuild { r with Status := .running })) bb.entries with hE'
  have hb' : ({ s with build := some (Bkt.mk bb.seq E') } : Store).build =
      some (Bkt.mk bb.seq E') := rfl
  have hrec' : ∀ j, j < U64 →
      recordOf { s with build := some (Bkt.mk bb.seq E') } j =
        if j = id then some { r with Status := .running }
        else recordOf s j := by
    intro j hj
    rw [recordOf_some_build hb']
    by_cases hji : j = id
    · subst hji
      rw [if_pos rfl]
      simp only [Bkt.entries_mk, hE']
      rw [findEnt_insert_self]
    · rw [if_neg hji]
      simp only [Bkt.entries_mk, hE']
      rw [findEnt_insert_ne _ _ _ (itob_ne_of_ne hj hid hji),
        ← recordOf_some_build hb]
  have hidbound := inv.rec_id id r hid hrec
  refine
    { bseq_eq := ?_, rec_id := ?_, bkeys := ?_, sha_empty := ?_,
      pend_keys := ?_, pend_complete := ?_, pend_sorted := ?_,
      ref_seq := ?_, ref_ents := ?_, ref_sorted := ?_, refT_trace := ?_,
      refN_trace := ?_ }
  · have h1 : bseq { s with build := some (Bkt.mk bb.seq E') } = bb.seq := rfl
    have h2 : bseq s = bb.seq := by unfold bseq; rw [hb]
    rw [h1, ← h2]
    exact inv.bseq_eq
  · intro j r' hj hr'
    rw [hrec' j hj] at hr'
    by_cases hji : j = id
    · rw [if_pos hji] at hr'
      injection hr' with hr'
      subst hr'
      subst hji
      exact ⟨hidbound.1, hidbound.2.1, hidbound.2.2⟩
    · rw [if_neg hji] at hr'
      exact inv.rec_id j r' hj hr'
  · intro p hp
    have hpE : p ∈ E' := hp
    rcases mem_insertEntry _ _ hpE with hpi | hpold
    · subst hpi
      exact Or.inl ⟨id, hidbound.2.1, hidbound.2.2, rfl, _, rfl⟩
    · apply inv.bkeys
      rw [hb]
      exact hpold
  · exact inv.sha_empty
  · intro k hk
    have hpk : pendingKeys { s with build := some (Bkt.mk bb.seq E') } =
        pendingKeys s := pendingKeys_congr rfl
    rw [hpk] at hk
    obtain ⟨j, r0, hkj, hjlt, hr0, hp0⟩ := inv.pend_keys k hk
    by_cases hji : j = id
    · subst hji
      refine ⟨j, { r with Status := .running }, hkj, hjlt, ?_, rfl⟩
      rw [hrec' j hjlt, if_pos rfl]
    · refine ⟨j, r0, hkj, hjlt, ?_, hp0⟩
      rw [hrec' j hjlt, if_neg hji]
      exact hr0
  · intro j r' hj hr' hp'
    have hpk : pendingKeys { s with build := some (Bkt.mk bb.seq E') } =
        pendingKeys s := pendingKeys_congr rfl
    rw [hpk]
    rw [hrec' j hj] at hr'
    by_cases hji : j = id
    · subst hji
      exact inv.pend_complete j r hj hrec (by rw [hrst]; rfl)
    · rw [if_neg hji] at hr'
      exact inv.pend_complete j r' hj hr' hp'
  · have hpb : DB.pendingBuilds { s with build := some (Bkt.mk bb.seq E') } =
        DB.pendingBuilds s := rfl
    rw [hpb]
    exact inv.pend_sorted
  · intro t ref nb hnb
    exact inv.ref_seq t ref nb (by rwa [refNB_congr rfl] at hnb)
  · intro t ref nb hnb p hp
    have hnb' : refNB s t ref = some nb := by rwa [refNB_congr rfl] at hnb
    obtain ⟨i, v, h1, h2, h3, h4, h5, h6, r0, hr0⟩ :=
      inv.ref_ents t ref nb hnb' p hp
    refine ⟨i, v, h1, h2, h3, h4, h5, h6, ?_⟩
    have hvlt : v < U64 := lt_of_le_of_lt h6 hw
    rw [hrec' v hvlt]
    by_cases hvi : v = id
    · rw [if_pos hvi]
      exact ⟨_, rfl⟩
    · rw [if_neg hvi]
      exact ⟨r0, hr0⟩
  · intro t ref
    rw [refIds_congr rfl]
    exact inv.ref_sorted t ref
  · intro t tb htb
    exact inv.refT_trace t tb (by rwa [refTB_congr rfl] at htb)
  · intro t ref nb hnb
    exact inv.refN_trace t ref nb (by rwa [refNB_congr rfl] at hnb)

/-! ### Preservation of the invariant by a terminal transition -/

theorem invC_finish {tr : List CArgs} {s : Store} {id : Nat} {st : Status}
    {s' : Store} (inv : InvC tr s) (hw : 2 * tr.length < U64) (hid : id < U64)
    (hr : statusOf s id = some .running) (hterm : st.isTerminal = true)
    (h : setStatus id st s = .ok s') : InvC tr s' := by
  obtain ⟨bb, r, hb, hv, hrest⟩ := setStatus_ok h
  have hrec : recordOf s id = some r := recordOf_of_build hb hv
  have hrst : r.Status = Status.running := by
    unfold statusOf at hr
    rw [hrec] at hr
    simpa using hr
  have hpend : itob id ∈ pendingKeys s :=
    inv.pend_complete id r hid hrec (by rw [hrst]; rfl)
  rcases hrest with ⟨habs, -⟩ | ⟨-, hnone, -⟩ | ⟨pb, -, hsp, -, hs'⟩
  case intro.intro.intro.intro.inl.intro =>
    rw [hterm] at habs
    exact Bool.noConfusion habs
  case intro.intro.intro.intro.inr.inl.intro =>
    have : pendingKeys s = [] := by unfold pendingKeys; rw [hnone]
    rw [this] at hpend
    exact absurd hpend (List.not_mem_nil _)
  subst hs'
  set E' := insertEntry (itob id)
    (Sum.inl (Val.gobBuild { r with Status := st })) bb.entries with hE'
  set P' : Bkt := Bkt.mk pb.seq
    (pb.entries.filter (fun p => p.1 ≠ itob id)) with hP'
  set s2 : Store := { s with build := some (Bkt.mk bb.seq E'), pending := some P' } with hs2
  have hb' : s2.build = some (Bkt.mk bb.seq E') := rfl
  have hrec' : ∀ j, j < U64 →
      recordOf s2 j =
        if j = id then some { r with Status := st }
        else recordOf s j := by
    intro j hj
    rw [recordOf_some_build hb']
    by_cases hji : j = id
    · subst hji
      rw [if_pos rfl]
      simp only [Bkt.entries_mk, hE']
      rw [findEnt_insert_self]
    · rw [if_neg hji]
      simp only [Bkt.entries_mk, hE']
      rw [findEnt_insert_ne _ _ _ (itob_ne_of_ne hj hid hji),
        ← recordOf_some_build hb]
  have hpk0 : pendingKeys s = pb.entries.map Prod.fst := by
    unfold pendingKeys
    rw [hsp]
  have hpk : pendingKeys s2 =
        (pendingKeys s).filter (fun k' => k' ≠ itob id) := by
    have h1 : pendingKeys s2 = P'.entries.map Prod.fst := rfl
    rw [h1, hP', Bkt.entries_mk, map_fst_filter_ne, hpk0]
  have hidbound := inv.rec_id id r hid hrec
  refine
    { bseq_eq := ?_, rec_id := ?_, bkeys := ?_, sha_empty := ?_,
      pend_keys := ?_, pend_complete := ?_, pend_sorted := ?_,
      ref_seq := ?_, ref_ents := ?_, ref_sorted := ?_, refT_trace := ?_,
      refN_trace := ?_ }
  · have h1 : bseq s2 = bb.seq := rfl
    have h2 : bseq s = bb.seq := by unfold bseq; rw [hb]
    rw [h1, ← h2]
    exact inv.bseq_eq
  · intro j r' hj hr'
    rw [hrec' j hj] at hr'
    by_cases hji : j = id
    · rw [if_pos hji] at hr'
      injection hr' with hr'
      subst hr'
      subst hji
      exact ⟨hidbound.1, hidbound.2.1, hidbound.2.2⟩
    · rw [if_neg hji] at hr'
      exact inv.rec_id j r' hj hr'
  · intro p hp
    have hpE : p ∈ E' := hp
    rcases mem_insertEntry _ _ hpE with hpi | hpold
    · subst hpi
      exact Or.inl ⟨id, hidbound.2.1, hidbound.2.2, rfl, _, rfl⟩
    · apply inv.bkeys
      rw [hb]
      exact hpold
  · exact inv.sha_empty
  · intro k hk
    rw [hpk] at hk
    obtain ⟨hk1, hk2⟩ := List.mem_filter.mp hk
    have hkne : k ≠ itob id := by simpa using hk2
    obtain ⟨j, r0, hkj, hjlt, hr0, hp0⟩ := inv.pend_keys k hk1
    have hji : j ≠ id := by
      intro hc
      exact hkne (hkj.trans (by rw [hc]))
    refine ⟨j, r0, hkj, hjlt, ?_, hp0⟩
    rw [hrec' j hjlt, if_neg hji]
    exact hr0
  · intro j r' hj hr' hp'
    rw [hrec' j hj] at hr'
    by_cases hji : j = id
    · rw [if_pos hji] at hr'
      injection hr' with hr'
      rw [← hr'] at hp'
      have : Status.isPending st = false := not_pending_of_terminal hterm
      rw [hp'] at this
      exact Bool.noConfusion this
    · rw [if_neg hji] at hr'
      have hmem := inv.pend_complete j r' hj hr' hp'
      rw [hpk]
      refine List.mem_filter.mpr ⟨hmem, ?_⟩
      simp only [ne_eq, decide_eq_true_eq]
      exact itob_ne_of_ne hj hid hji
  · have hpb : DB.pendingBuilds s2 =
          ((pendingKeys s).filter (fun k' => k' ≠ itob id)).map btoi := by
      rw [pendingBuilds_eq, hpk]
    rw [hpb]
    have hsub : ((pendingKeys s).filter (fun k' => k' ≠ itob id)).map btoi
        |>.Sublist ((pendingKeys s).map btoi) :=
      List.Sublist.map btoi (List.filter_sublist _)
    have := inv.pend_sorted
    rw [pendingBuilds_eq] at this
    exact this.sublist hsub
  · intro t ref nb hnb
    exact inv.ref_seq t ref nb (by rwa [refNB_congr rfl] at hnb)
  · intro t ref nb hnb p hp
    have hnb' : refNB s t ref = some nb := by rwa [refNB_congr rfl] at hnb
    obtain ⟨i, v, h1, h2, h3, h4, h5, h6, r0, hr0⟩ :=
      inv.ref_ents t ref nb hnb' p hp
    refine ⟨i, v, h1, h2, h3, h4, h5, h6, ?_⟩
    have hvlt : v < U64 := lt_of_le_of_lt h6 hw
    rw [hrec' v hvlt]
    by_cases hvi : v = id
    · rw [if_pos hvi]
      exact ⟨_, rfl⟩
    · rw [if_neg hvi]
      exact ⟨r0, hr0⟩
  · intro t ref
    rw [refIds_congr rfl]
    exact inv.ref_sorted t ref
  · intro t tb htb
    exact inv.refT_trace t tb (by rwa [refTB_congr rfl] at htb)
  · intro t ref nb hnb
    exact inv.refN_trace t ref nb (by rwa [refNB_congr rfl] at hnb)

theorem cbN0_eq {t : BuildType} {cu ref sha : String} {s : Store}
    (hc : CBConds t cu ref sha s) :
    cbN0 t ref s = (refNB s t ref).getD Bkt.empty := by
  have h0 := cbT0_eq hc
  have hnl := hc.ref_noleaf
  rw [h0] at hnl
  unfold cbN0 cbT1 refNB
  rw [h0]
  cases htb : refTB s t with
  | none =>
    simp [ensEntries, findEnt, insertEntry, Bkt.empty, Bkt.getSub,
      Bkt.getEnt, Bkt.entries_mk]
  | some tb =>
    obtain ⟨tseq, tents⟩ := tb
    rw [htb] at hnl
    simp only [Option.getD, Bkt.entries_mk] at hnl ⊢
    unfold Bkt.getSub Bkt.getEnt ensEntries
    simp only [Bkt.entries_mk]
    cases hfe : findEnt (strKey ref) tents with
    | none =>
      rw [findEnt_insert_self]
    | some e =>
      cases e with
      | inl v => exact absurd hfe (hnl v)
      | inr sb => simp [hfe]

theorem refIds_of_refNB {s s' : Store} {t t' : BuildType} {ref ref' : String}
    (h : refNB s' t' ref' = refNB s t ref) :
    refIds s' t' ref' = refIds s t ref := by
  unfold refIds
  rw [h]

theorem entBytes_bytes (bs : List Nat) :
    entBytes (Sum.inl (Val.bytes bs)) = bs := rfl

/-! ### Preservation of the invariant by `CreateBuild` -/

theorem invC_create {tr : List CArgs} {s : Store} {a : CArgs} {b : Build}
    {s' : Store} (inv : InvC tr s) (hw : 2 * (tr.length + 1) < U64)
    (h : DB.CreateBuild a.t a.cloneURL a.ref a.sha s = .ok (b, s')) :
    InvC (tr ++ [a]) s' := by
  obtain ⟨-, hs', hc⟩ := createBuild_ok h
  subst hs'
  set t := a.t with hat
  set cu := a.cloneURL with hacu
  set ref := a.ref with haref
  set sha := a.sha with hasha
  set L := tr.length with hL
  have hσ : bseq s = 2 * L := inv.bseq_eq
  have hnlt : cbN s < U64 := cbN_lt s
  have hmlt : cbM s < U64 := cbM_lt s
  have hn : cbN s = 2 * L + 1 := by
    rw [cbN_eq (by rw [hσ]; omega), hσ]
  have hm : cbM s = 2 * L + 2 := by
    rw [cbM_eq (by rw [hσ]; omega), hσ]
  have hlen : (tr ++ [a]).length = L + 1 := by
    simp [hL]
  have hrecNew : recordOf (cbStore t cu ref sha s) (cbN s) =
      some (cbBuild t cu ref sha s) := recordOf_cb_self hc
  have hrecM : recordOf (cbStore t cu ref sha s) (cbM s) = none :=
    recordOf_cb_m
  have hF2 : ∀ j r0, j < U64 → recordOf s j = some r0 →
      recordOf (cbStore t cu ref sha s) j = some r0 := by
    intro j r0 hj hr0
    have hbound := inv.rec_id j r0 hj hr0
    have hjn : j ≠ cbN s := by rw [hn]; omega
    have hjm : j ≠ cbM s := by rw [hm]; omega
    rw [recordOf_cb_frame hc hj hjn hjm]
    exact hr0
  have hF1 : ∀ j r', j < U64 →
      recordOf (cbStore t cu ref sha s) j = some r' →
        (j = cbN s ∧ r' = cbBuild t cu ref sha s) ∨
          (j ≠ cbN s ∧ j ≠ cbM s ∧ recordOf s j = some r') := by
    intro j r' hj hr'
    by_cases hjn : j = cbN s
    · subst hjn
      rw [hrecNew] at hr'
      injection hr' with hr'
      exact Or.inl ⟨rfl, hr'.symm⟩
    · by_cases hjm : j = cbM s
      · subst hjm
        rw [hrecM] at hr'
        exact Option.noConfusion hr'
      · right
        refine ⟨hjn, hjm, ?_⟩
        rw [← recordOf_cb_frame hc hj hjn hjm]
        exact hr'
  have hall : ∀ p ∈ (cbP0 s).entries, keyLtb p.1 (itob (cbN s)) = true := by
    intro p hp
    have hk : p.1 ∈ pendingKeys s := by
      rw [← pendingKeys_cbP0]
      exact List.mem_map_of_mem _ hp
    obtain ⟨j, r0, hkj, hjlt, hr0, -⟩ := inv.pend_keys p.1 hk
    have hbound := inv.rec_id j r0 hjlt hr0
    rw [hkj]
    exact (keyLtb_itob hjlt hnlt).mpr (by rw [hn]; omega)
  have hpkeys : pendingKeys (cbStore t cu ref sha s) =
      pendingKeys s ++ [itob (cbN s)] := by
    rw [pendingKeys_cbStore, insertEntry_append _ _ hall, List.map_append,
      pendingKeys_cbP0]
    rfl
  have hpids : DB.pendingBuilds (cbStore t cu ref sha s) =
      DB.pendingBuilds s ++ [cbN s] := by
    rw [pendingBuilds_eq, hpkeys, List.map_append, ← pendingBuilds_eq]
    simp [btoi_itob, Nat.mod_eq_of_lt hnlt]
  have hcbN0 := cbN0_eq hc
  have hrefseq0 : (cbN0 t ref s).seq ≤ L := by
    rw [hcbN0]
    cases hnb : refNB s t ref with
    | none => exact Nat.zero_le _
    | some nb0 => simpa using inv.ref_seq t ref nb0 hnb
  have hρ : cbRho t ref s = (cbN0 t ref s).seq + 1 := by
    unfold cbRho
    exact Nat.mod_eq_of_lt (by omega)
  have hρlt : cbRho t ref s < U64 := cbRho_lt t ref s
  have hallref : ∀ p ∈ (cbN0 t ref s).entries,
      keyLtb p.1 (itob (cbRho t ref s)) = true := by
    intro p hp
    rw [hcbN0] at hp
    cases hnb : refNB s t ref with
    | none =>
      rw [hnb] at hp
      simp [Bkt.empty, Bkt.entries_mk] at hp
    | some nb0 =>
      rw [hnb] at hp
      simp only [Option.getD] at hp
      obtain ⟨i, v, h1, h2, h3, -⟩ := inv.ref_ents t ref nb0 hnb p hp
      have hseq0 : nb0.seq ≤ L := inv.ref_seq t ref nb0 hnb
      have hilt : i < U64 := by omega
      rw [h1]
      refine (keyLtb_itob hilt hρlt).mpr ?_
      have : cbN0 t ref s = nb0 := by rw [hcbN0, hnb]; rfl
      rw [hρ, this]
      omega
  have hN1entries : (cbN1 t ref s).entries =
      (cbN0 t ref s).entries ++
        [(itob (cbRho t ref s), Sum.inl (Val.bytes (itob (cbN s))))] := by
    unfold cbN1
    simp only [Bkt.entries_mk]
    exact insertEntry_append _ _ hallref
  have hmapN0 : (cbN0 t ref s).entries.map (fun p => btoi (entBytes p.2)) =
      refIds s t ref := by
    rw [hcbN0]
    unfold refIds
    cases hnb : refNB s t ref with
    | none => simp [Bkt.empty, Bkt.entries_mk]
    | some nb0 => simp
  have hrefIds_same : ∀ t' ref', itob t' = itob t → strKey ref' = strKey ref →
      refIds (cbStore t cu ref sha s) t' ref' = refIds s t ref ++ [cbN s] := by
    intro t' ref' ht hr
    have h1 : refIds (cbStore t cu ref sha s) t' ref' =
        (cbN1 t ref s).entries.map (fun p => btoi (entBytes p.2)) := by
      unfold refIds
      rw [refNB_cb_same ht hr]
    rw [h1, hN1entries, List.map_append, hmapN0]
    simp [entBytes_bytes, btoi_itob, Nat.mod_eq_of_lt hnlt]
  refine
    { bseq_eq := ?_, rec_id := ?_, bkeys := ?_, sha_empty := ?_,
      pend_keys := ?_, pend_complete := ?_, pend_sorted := ?_,
      ref_seq := ?_, ref_ents := ?_, ref_sorted := ?_, refT_trace := ?_,
      refN_trace := ?_ }
  · rw [bseq_cbStore, hm, hlen]
    ring
  · intro j r' hj hr'
    rw [hlen]
    rcases hF1 j r' hj hr' with ⟨rfl, rfl⟩ | ⟨-, -, hold⟩
    · refine ⟨?_, by omega, by omega⟩
      unfold cbBuild
      rw [hn]
    · have := inv.rec_id j r' hj hold
      exact ⟨this.1, this.2.1, by omega⟩
  · intro p hp
    rw [hlen]
    have hpE : p ∈ cbE3 t cu ref sha s := hp
    rw [cbE3] at hpE
    rcases mem_insertEntry _ _ hpE with rfl | hp2
    · exact Or.inl ⟨cbM s, by omega, by omega, rfl, _, rfl⟩
    · rw [cbE2] at hp2
      rcases mem_ens hp2 with rfl | hp1
      · exact Or.inr ⟨_, rfl⟩
      · rw [cbE1] at hp1
        rcases mem_insertEntry _ _ hp1 with rfl | hp0
        · exact Or.inl ⟨cbN s, by omega, by omega, rfl, _, rfl⟩
        · rcases inv.bkeys p hp0 with ⟨j, hj1, hj2, hj3, hj4⟩ | hsub
          · exact Or.inl ⟨j, hj1, by omega, hj3, hj4⟩
          · exact Or.inr hsub
  · right
    rcases inv.sha_empty with hsh | hsh <;> rw [show (cbStore t cu ref sha s).sha = some (s.sha.getD Bkt.empty) from rfl, hsh] <;> rfl
  · intro k hk
    rw [hpkeys] at hk
    rcases List.mem_append.mp hk with hk | hk
    · obtain ⟨j, r0, hkj, hjlt, hr0, hp0⟩ := inv.pend_keys k hk
      exact ⟨j, r0, hkj, hjlt, hF2 j r0 hjlt hr0, hp0⟩
    · rcases List.mem_singleton.mp hk with rfl
      exact ⟨cbN s, cbBuild t cu ref sha s, rfl, hnlt, hrecNew, rfl⟩
  · intro j r' hj hr' hp'
    rw [hpkeys]
    rcases hF1 j r' hj hr' with ⟨rfl, -⟩ | ⟨-, -, hold⟩
    · exact List.mem_append.mpr (Or.inr (List.mem_singleton.mpr rfl))
    · exact List.mem_append.mpr (Or.inl (inv.pend_complete j r' hj hold hp'))
  · rw [hpids]
    rw [List.pairwise_append]
    refine ⟨inv.pend_sorted, List.pairwise_singleton _ _, ?_⟩
    intro x hx y hy
    rcases List.mem_singleton.mp hy with rfl
    rw [pendingBuilds_eq] at hx
    obtain ⟨k, hk, rfl⟩ := List.mem_map.mp hx
    obtain ⟨j, r0, rfl, hjlt, hr0, -⟩ := inv.pend_keys k hk
    have hbound := inv.rec_id j r0 hjlt hr0
    rw [btoi_itob, Nat.mod_eq_of_lt hjlt, hn]
    omega
  · intro t' ref' nb hnb
    rw [hlen]
    by_cases ht : itob t' = itob t
    · by_cases hr : strKey ref' = strKey ref
      · rw [refNB_cb_same ht hr] at hnb
        injection hnb with hnb
        subst hnb
        have : (cbN1 t ref s).seq = cbRho t ref s := rfl
        rw [this, hρ]
        omega
      · rw [refNB_cb_sameT_otherR hc ht hr] at hnb
        have := inv.ref_seq t' ref' nb hnb
        omega
    · rw [refNB_cb_otherT ht] at hnb
      have := inv.ref_seq t' ref' nb hnb
      omega
  · intro t' ref' nb hnb p hp
    rw [hlen]
    by_cases ht : itob t' = itob t
    · by_cases hr : strKey ref' = strKey ref
      · rw [refNB_cb_same ht hr] at hnb
        injection hnb with hnb
        subst hnb
        rw [hN1entries] at hp
        have hseqN1 : (cbN1 t ref s).seq = cbRho t ref s := rfl
        rcases List.mem_append.mp hp with hp0 | hp1
        · rw [hcbN0] at hp0
          cases hnb0 : refNB s t ref with
          | none =>
            rw [hnb0] at hp0
            simp [Bkt.empty, Bkt.entries_mk] at hp0
          | some nb0 =>
            rw [hnb0] at hp0
            simp only [Option.getD] at hp0
            obtain ⟨i, v, h1, h2, h3, h4, h5, h6, r0, hr0⟩ :=
              inv.ref_ents t ref nb0 hnb0 p hp0
            have hseq0 : nb0.seq ≤ L := inv.ref_seq t ref nb0 hnb0
            have hN0nb0 : cbN0 t ref s = nb0 := by rw [hcbN0, hnb0]; rfl
            refine ⟨i, v, h1, h2, ?_, h4, h5, by omega, r0,
              hF2 v r0 (by omega) hr0⟩
            rw [hseqN1, hρ, hN0nb0]
            omega
        · rcases List.mem_singleton.mp hp1 with rfl
          refine ⟨cbRho t ref s, cbN s, rfl, by rw [hρ]; omega, ?_, rfl,
            by rw [hn]; omega, by rw [hn]; omega, _, hrecNew⟩
          rw [hseqN1]
      · rw [refNB_cb_sameT_otherR hc ht hr] at hnb
        obtain ⟨i, v, h1, h2, h3, h4, h5, h6, r0, hr0⟩ :=
          inv.ref_ents t' ref' nb hnb p hp
        exact ⟨i, v, h1, h2, h3, h4, h5, by omega, r0,
          hF2 v r0 (by omega) hr0⟩
    · rw [refNB_cb_otherT ht] at hnb
      obtain ⟨i, v, h1, h2, h3, h4, h5, h6, r0, hr0⟩ :=
        inv.ref_ents t' ref' nb hnb p hp
      exact ⟨i, v, h1, h2, h3, h4, h5, by omega, r0,
        hF2 v r0 (by omega) hr0⟩
  · intro t' ref'
    by_cases ht : itob t' = itob t
    · by_cases hr : strKey ref' = strKey ref
      · rw [hrefIds_same t' ref' ht hr, List.pairwise_append]
        refine ⟨inv.ref_sorted t ref, List.pairwise_singleton _ _, ?_⟩
        intro x hx y hy
        rcases List.mem_singleton.mp hy with rfl
        unfold refIds at hx
        cases hnb0 : refNB s t ref with
        | none =>
          rw [hnb0] at hx
          simp at hx
        | some nb0 =>
          rw [hnb0] at hx
          obtain ⟨p, hp, rfl⟩ := List.mem_map.mp hx
          obtain ⟨i, v, h1, h2, h3, h4, h5, h6, -⟩ :=
            inv.ref_ents t ref nb0 hnb0 p hp
          rw [h4, entBytes_bytes, btoi_itob, Nat.mod_eq_of_lt (by omega), hn]
          omega
      · rw [refIds_of_refNB (refNB_cb_sameT_otherR hc ht hr)]
        exact inv.ref_sorted t' ref'
    · rw [refIds_of_refNB (refNB_cb_otherT ht)]
      exact inv.ref_sorted t' ref'
  · intro t' tb htb
    by_cases ht : itob t' = itob t
    · refine ⟨a, by simp, ?_⟩
      rw [← hat]
      exact ht.symm
    · rw [refTB_cb_other t cu ref sha s ht] at htb
      obtain ⟨a0, ha0, ha1⟩ := inv.refT_trace t' tb htb
      exact ⟨a0, by simp [ha0], ha1⟩
  · intro t' ref' nb hnb
    by_cases ht : itob t' = itob t
    · by_cases hr : strKey ref' = strKey ref
      · refine ⟨a, by simp, ?_, ?_⟩
        · rw [← hat]
          exact ht.symm
        · rw [← haref]
          exact (strKey_inj hr).symm
      · rw [refNB_cb_sameT_otherR hc ht hr] at hnb
        obtain ⟨a0, ha0, ha1, ha2⟩ := inv.refN_trace t' ref' nb hnb
        exact ⟨a0, by simp [ha0], ha1, ha2⟩
    · rw [refNB_cb_otherT ht] at hnb
      obtain ⟨a0, ha0, ha1, ha2⟩ := inv.refN_trace t' ref' nb hnb
      exact ⟨a0, by simp [ha0], ha1, ha2⟩

/-! ### The invariant holds in every reachable state -/

theorem invC_init : InvC [] Store.empty := by
  refine
    { bseq_eq := rfl, rec_id := ?_, bkeys := ?_, sha_empty := Or.inl rfl,
      pend_keys := ?_, pend_complete := ?_, pend_sorted := ?_,
      ref_seq := ?_, ref_ents := ?_, ref_sorted := ?_, refT_trace := ?_,
      refN_trace := ?_ }
  · intro j r hj hr
    simp [recordOf, Store.empty] at hr
  · intro p hp
    simp [Store.empty, Bkt.empty, Bkt.entries_mk] at hp
  · intro k hk
    simp [pendingKeys, Store.empty] at hk
  · intro j r hj hr
    simp [recordOf, Store.empty] at hr
  · simp [DB.pendingBuilds, Store.empty]
  · intro t ref nb hnb
    simp [refNB, refTB, Store.empty] at hnb
  · intro t ref nb hnb
    simp [refNB, refTB, Store.empty] at hnb
  · intro t ref
    simp [refIds, refNB, refTB, Store.empty]
  · intro t tb htb
    simp [refTB, Store.empty] at htb
  · intro t ref nb hnb
    simp [refNB, refTB, Store.empty] at hnb

theorem reach_inv {tr : List CArgs} {s : Store} (h : Reach tr s) :
    StoreInv tr s := by
  induction h with
  | init => exact fun _ => invC_init
  | create hr hok ih =>
    intro hw
    rw [List.length_append, List.length_singleton] at hw
    exact invC_create (ih (by omega)) hw hok
  | claim hr hid hq hss ih =>
    intro hw
    exact invC_claim (ih hw) hw hid hq hss
  | finish hr hid hrun hterm hss ih =>
    intro hw
    exact invC_finish (ih hw) hw hid hrun hterm hss

/-! ### Linking the query API to the abstractions -/

theorem build_ok_iff {id : Nat} {s : Store} {r : Build} :
    DB.Build id s = .ok r ↔ recordOf s id = some r := by
  unfold DB.Build recordOf
  cases s.build with
  | none => simp
  | some bb =>
    cases hgv : bb.getVal (itob id) with
    | none => simp [hgv]
    | some v =>
      cases v with
      | bytes bs => simp [hgv]
      | gobBuild r0 => simp [hgv]

theorem idsToBuilds_ok {s : Store} {ids : List Nat}
    (h : ∀ id ∈ ids, ∃ r, recordOf s id = some r ∧ r.ID = id) :
    ∃ bs, DB.idsToBuilds s ids = .ok bs ∧ bs.map Build.ID = ids := by
  induction ids with
  | nil => exact ⟨[], rfl, rfl⟩
  | cons id rest ih =>
    obtain ⟨r, hr, hid⟩ := h id (List.mem_cons_self _ _)
    obtain ⟨bs, hbs, hmap⟩ := ih (fun i hi => h i (List.mem_cons_of_mem _ hi))
    refine ⟨r :: bs, ?_, by simp [hmap, hid]⟩
    unfold DB.idsToBuilds at hbs ⊢
    rw [List.mapM_cons, build_ok_iff.mpr hr, hbs]
    rfl

theorem isPending_iff {st : Status} :
    st.isPending = true ↔ st = .queued ∨ st = .running := by
  cases st <;> simp [Status.isPending]

/-- Whether an error is one of `validate`'s three rejections. -/
def Err.isValidation : Err → Bool
  | .invalidStart _ => true
  | .invalidEnd _ => true
  | .invalidRange _ _ => true
  | _ => false

theorem Build_error_not_validation {id : Nat} {s : Store} {er : Err}
    (h : DB.Build id s = .error er) : er.isValidation = false := by
  unfold DB.Build at h
  split at h
  next =>
    injection h with h
    rw [← h]
    rfl
  next bb =>
    split at h
    next =>
      injection h with h
      rw [← h]
      rfl
    next bs =>
      injection h with h
      rw [← h]
      rfl
    next r => exact Except.noConfusion h

theorem idsToBuilds_error_not_validation {s : Store} {ids : List Nat}
    {er : Err} (h : DB.idsToBuilds s ids = .error er) :
    er.isValidation = false := by
  induction ids with
  | nil => exact Except.noConfusion h
  | cons id rest ih =>
    unfold DB.idsToBuilds at h ih
    rw [List.mapM_cons] at h
    cases hb : DB.Build id s with
    | error e0 =>
      rw [hb] at h
      injection h with h
      rw [h] at hb
      exact Build_error_not_validation hb
    | ok r =>
      rw [hb] at h
      cases hrest : rest.mapM (fun id => DB.Build id s) with
      | error e1 =>
        rw [hrest] at h
        injection h with h
        rw [h] at hrest
        exact ih hrest
      | ok bs =>
        rw [hrest] at h
        exact Except.noConfusion h

/-! ### The cursor loop of `refBuilds` -/

theorem refBuilds_eq (t : BuildType) (ref : String) (start e : Int)
    (s : Store) :
    DB.refBuilds t ref start e s =
      match refNB s t ref with
      | none => []
      | some nb => collectRef e (e - start) nb.entries.reverse [] := by
  unfold DB.refBuilds refNB refTB
  cases s.ref with
  | none => rfl
  | some rb =>
    cases hg1 : rb.getSub (itob t) with
    | none => simp [hg1]
    | some tb =>
      cases hg2 : tb.getSub (strKey ref) with
      | none => simp [hg1, hg2]
      | some nb => simp [hg1, hg2]


theorem collectRef_neg1 (diff : Int) :
    ∀ (l : List (Key × Ent)) (acc : List Nat),
      collectRef (-1) diff l acc =
        acc ++ l.map (fun p => btoi (entBytes p.2))
  | [], acc => by simp [collectRef]
  | (k, v) :: rest, acc => by
    rw [collectRef, if_pos (Or.inl rfl), collectRef_neg1 diff rest]
    simp

theorem collectRef_take {e diff : Int} (he : e ≠ -1) :
    ∀ (l : List (Key × Ent)) (acc : List Nat),
      collectRef e diff l acc =
        acc ++ (l.map (fun p => btoi (entBytes p.2))).take
          (diff.toNat - acc.length)
  | [], acc => by simp [collectRef]
  | (k, v) :: rest, acc => by
    by_cases hlt : (acc.length : Int) < diff
    · rw [collectRef, if_pos (Or.inr hlt), collectRef_take he rest]
      have harith : diff.toNat - acc.length = (diff.toNat - (acc.length + 1)) + 1 := by
        omega
      simp only [List.length_append, List.length_singleton, List.map_cons]
      rw [harith, List.take_succ_cons]
      simp
    · rw [collectRef, if_neg (by push_neg; exact ⟨he, le_of_not_lt hlt⟩)]
      have : diff.toNat - acc.length = 0 := by omega
      rw [this]
      simp

/-! ### Concrete stores for the witnesses: n builds with fixed arguments -/

/-- The store after `n` successful `CreateBuild(0, "u", "m", "s")` calls on a
fresh database. -/
def storeN : Nat → Store
  | 0 => Store.empty
  | n + 1 =>
    match DB.CreateBuild 0 "u" "m" "s" (storeN n) with
    | .ok (_, s') => s'
    | .error _ => Store.empty

/-- The build returned by the `(n+1)`-st of those calls. -/
def buildN (n : Nat) : Build :=
  match DB.CreateBuild 0 "u" "m" "s" (storeN n) with
  | .ok (b, _) => b
  | .error _ => ⟨0, 0, "", "", "", .queued⟩

/-- The arguments of those calls, as a trace element. -/
def cargsW : CArgs := ⟨0, "u", "m", "s"⟩

theorem hok0 : DB.CreateBuild cargsW.t cargsW.cloneURL cargsW.ref cargsW.sha
    (storeN 0) = .ok (buildN 0, storeN 1) := rfl

theorem hok1 : DB.CreateBuild cargsW.t cargsW.cloneURL cargsW.ref cargsW.sha
    (storeN 1) = .ok (buildN 1, storeN 2) := rfl

theorem reach1 : Reach ([] ++ [cargsW]) (storeN 1) :=
  Reach.create Reach.init hok0

theorem reach2 : Reach (([] ++ [cargsW]) ++ [cargsW]) (storeN 2) :=
  Reach.create reach1 hok1

/-! ## The claims -/

/-- Claim C2, counterexample: on an empty store the first `CreateBuild`
returns ID 1 but the second returns ID 3, not 2 — `CreateBuild` advances
the build bucket's sequence twice per call. -/
theorem C2_counterexample :
    (buildN 0).ID = 1 ∧ (buildN 1).ID = 3 ∧ ¬ (buildN 1).ID = 2 :=
  ⟨rfl, rfl, by decide⟩

/-- Claim C2, amended: successive successful `CreateBuild` calls return
strictly increasing build IDs regardless of arguments — consecutive IDs
differ by exactly 2 — and on an empty store the first call returns ID 1 and
the second returns ID 3 (not 2), absent `uint64` counter overflow. -/
theorem C2_amended {s : Store} {t1 t2 : BuildType} {cu1 r1 h1 cu2 r2 h2 : String}
    {b1 b2 : Build} {s1 s2 : Store} (hw : bseq s + 3 < U64)
    (hc1 : DB.CreateBuild t1 cu1 r1 h1 s = .ok (b1, s1))
    (hc2 : DB.CreateBuild t2 cu2 r2 h2 s1 = .ok (b2, s2)) :
    b1.ID < b2.ID ∧ b2.ID = b1.ID + 2 ∧
      (s = Store.empty → b1.ID = 1 ∧ b2.ID = 3) := by
  obtain ⟨hb1, hs1, -⟩ := createBuild_ok hc1
  obtain ⟨hb2, -, -⟩ := createBuild_ok hc2
  subst hb1
  subst hb2
  subst hs1
  have e1 : (cbBuild t1 cu1 r1 h1 s).ID = cbN s := rfl
  have e2 : (cbBuild t2 cu2 r2 h2 (cbStore t1 cu1 r1 h1 s)).ID =
      cbN (cbStore t1 cu1 r1 h1 s) := rfl
  have hn1 : cbN s = bseq s + 1 := cbN_eq (by omega)
  have hm1 : bseq (cbStore t1 cu1 r1 h1 s) = cbM s := bseq_cbStore t1 cu1 r1 h1 s
  have hm1' : cbM s = bseq s + 2 := cbM_eq (by omega)
  have hn2 : cbN (cbStore t1 cu1 r1 h1 s) = bseq (cbStore t1 cu1 r1 h1 s) + 1 :=
    cbN_eq (by rw [hm1, hm1']; omega)
  rw [e1, e2, hn1, hn2, hm1, hm1']
  refine ⟨by omega, by omega, ?_⟩
  intro hse
  subst hse
  have : bseq Store.empty = 0 := rfl
  omega

/-- Claim C2, witness: the amended statement at the empty store. -/
theorem C2_witness :
    bseq (storeN 0) + 3 < U64 ∧
      ((buildN 0).ID < (buildN 1).ID ∧ (buildN 1).ID = (buildN 0).ID + 2 ∧
        (storeN 0 = Store.empty → (buildN 0).ID = 1 ∧ (buildN 1).ID = 3)) :=
  ⟨by decide, C2_amended (by decide) hok0 hok1⟩

/-- Claim C3: for every `(type, cloneURL, ref, commitSHA)` and store, if
`CreateBuild` succeeds returning record `b`, then `Build(b.ID)` on the new
store succeeds and returns a record equal to `b`. -/
theorem C3_round_trip {t : BuildType} {cu ref sha : String} {s : Store}
    {b : Build} {s' : Store}
    (h : DB.CreateBuild t cu ref sha s = .ok (b, s')) :
    DB.Build b.ID s' = .ok b := by
  obtain ⟨hb, hs', hc⟩ := createBuild_ok h
  subst hb
  subst hs'
  exact build_ok_iff.mpr (recordOf_cb_self hc)

/-- Claim C3, witness: the round trip after one concrete `CreateBuild`. -/
theorem C3_witness : DB.Build (buildN 0).ID (storeN 1) = .ok (buildN 0) :=
  C3_round_trip hok0

/-- Claim C7: `RefBuilds` raises a validation error, before any storage
access (the error is the same for every store) and without touching the
result of any query, exactly when `start < 0`, `end < -1`, or
`end ≥ 0 ∧ start > end`; on all other ranges no validation error is ever
returned (any error is a storage/not-found error). -/
theorem C7_validation (start e : Int) :
    ((start < 0 ∨ e < -1 ∨ (0 ≤ e ∧ e < start)) ↔
      ∃ er, validate start e = some er) ∧
    (∀ er, validate start e = some er →
      er.isValidation = true ∧
        ∀ t ref s, DB.RefBuilds t ref start e s = .error er) ∧
    (validate start e = none → ∀ t ref s er,
      DB.RefBuilds t ref start e s = .error er →
        er.isValidation = false) := by
  refine ⟨⟨?_, ?_⟩, ?_, ?_⟩
  · intro hcond
    by_cases hh1 : start < 0
    · exact ⟨.invalidStart start, by unfold validate; rw [if_pos hh1]⟩
    by_cases hh2 : e < -1
    · exact ⟨.invalidEnd e, by unfold validate; rw [if_neg hh1, if_pos hh2]⟩
    have hh3 : e ≥ 0 ∧ start > e := by
      rcases hcond with h1 | h2 | ⟨h3a, h3b⟩ <;> omega
    exact ⟨.invalidRange start e,
      by unfold validate; rw [if_neg hh1, if_neg hh2, if_pos hh3]⟩
  · rintro ⟨er, her⟩
    unfold validate at her
    by_cases hh1 : start < 0
    · exact Or.inl hh1
    rw [if_neg hh1] at her
    by_cases hh2 : e < -1
    · exact Or.inr (Or.inl hh2)
    rw [if_neg hh2] at her
    by_cases hh3 : e ≥ 0 ∧ start > e
    · exact Or.inr (Or.inr ⟨hh3.1, hh3.2⟩)
    · rw [if_neg hh3] at her
      exact Option.noConfusion her
  · intro er her
    have hval : er.isValidation = true := by
      unfold validate at her
      by_cases hh1 : start < 0
      · rw [if_pos hh1] at her
        injection her with her
        rw [← her]
        rfl
      rw [if_neg hh1] at her
      by_cases hh2 : e < -1
      · rw [if_pos hh2] at her
        injection her with her
        rw [← her]
        rfl
      rw [if_neg hh2] at her
      by_cases hh3 : e ≥ 0 ∧ start > e
      · rw [if_pos hh3] at her
        injection her with her
        rw [← her]
        rfl
      · rw [if_neg hh3] at her
        exact Option.noConfusion her
    refine ⟨hval, ?_⟩
    intro t ref s
    unfold DB.RefBuilds
    rw [her]
  · intro hnone t ref s er hre
    unfold DB.RefBuilds at hre
    rw [hnone] at hre
    have hre' : (if start = e then (.ok [] : Except Err (List Build))
        else DB.idsToBuilds s (DB.refBuilds t ref start e s)) = .error er :=
      hre
    by_cases hse : start = e
    · rw [if_pos hse] at hre'
      exact Except.noConfusion hre'
    · rw [if_neg hse] at hre'
      exact idsToBuilds_error_not_validation hre'

/-- Claim C7, witness: `RefBuilds` with `start = -1` is rejected with a
validation error before any storage access. -/
theorem C7_witness :
    Err.isValidation (.invalidStart (-1)) = true ∧
      DB.RefBuilds 0 "m" (-1) 5 Store.empty = .error (.invalidStart (-1)) := by
  have h := (C7_validation (-1) 5).2.1 (.invalidStart (-1)) rfl
  exact ⟨h.1, h.2 0 "m" Store.empty⟩

/-- Claim C8: for every `k ≥ 0` and every type/ref/store,
`RefBuilds(type, ref, k, k)` returns an empty result and no error. -/
theorem C8_noop_range (t : BuildType) (ref : String) (s : Store) {k : Int}
    (hk : 0 ≤ k) : DB.RefBuilds t ref k k s = .ok [] := by
  have hv : validate k k = none := by
    unfold validate
    rw [if_neg (by omega), if_neg (by omega), if_neg (by omega)]
  unfold DB.RefBuilds
  rw [hv]
  have hgoal : (if k = k then (.ok [] : Except Err (List Build))
      else DB.idsToBuilds s (DB.refBuilds t ref k k s)) = .ok [] := if_pos rfl
  exact hgoal

/-- Claim C8, witness: the no-op range on a store with two recorded
builds. -/
theorem C8_witness :
    (0 : Int) ≤ 5 ∧ DB.RefBuilds 0 "m" 5 5 (storeN 2) = .ok [] :=
  ⟨by decide, C8_noop_range 0 "m" (storeN 2) (by decide)⟩

/-- Claim C5 (code bug), behavior at the failing input: after three
`CreateBuild` calls with `CommitSHA = "s"` on a fresh store, `SHABuilds "s"`
returns the empty list, not a list of length 3.  `CreateBuild` creates the
per-sha sub-bucket and writes the cross-reference through the receiver `b`,
which is still the *build* bucket (db.go lines 209-211); the top-level sha
bucket that `shaBuilds` reads is created but never written. -/
theorem C5_sha_index_never_populated :
    DB.SHABuilds "s" (storeN 3) = .ok [] ∧ ([] : List Build).length ≠ 3 :=
  ⟨rfl, by decide⟩

/-- The value stored in the build bucket at key `k` (none when the bucket
does not exist or the key holds a sub-bucket). -/
def buildVal (s : Store) (k : Key) : Option Val :=
  match s.build with
  | none => none
  | some bb => bb.getVal k

/-- The sub-bucket of the build bucket at key `k`. -/
def buildSub (s : Store) (k : Key) : Option Bkt :=
  match s.build with
  | none => none
  | some bb => bb.getSub k

/-- Claim C9: a successful `CreateBuild` advances the build bucket's
sequence twice; it stores an 8-byte build-ID value at key `ID+1` of the
build bucket, and the commit-SHA sub-bucket lives under the build bucket,
while the top-level sha bucket is only ensured to exist, never written;
consequently consecutive builds' IDs differ by 2 and `Build(ID+1)` fails
with a gob decoding error. -/
theorem C9_double_allocation {t : BuildType} {cu ref sha : String}
    {s : Store} {b : Build} {s' : Store} (hw : bseq s + 3 < U64)
    (h : DB.CreateBuild t cu ref sha s = .ok (b, s')) :
    bseq s' = bseq s + 2 ∧
    buildVal s' (itob (b.ID + 1)) = some (.bytes (itob b.ID)) ∧
    (∃ sb, buildSub s' (strKey sha) = some sb) ∧
    s'.sha = some (s.sha.getD Bkt.empty) ∧
    DB.Build (b.ID + 1) s' = .error .gobDecode ∧
    (∀ t2 cu2 r2 h2 b2 s2, DB.CreateBuild t2 cu2 r2 h2 s' = .ok (b2, s2) →
      b2.ID = b.ID + 2) := by
  obtain ⟨hb, hs', hc⟩ := createBuild_ok h
  subst hb
  subst hs'
  have hn : cbN s = bseq s + 1 := cbN_eq (by omega)
  have hm : cbM s = bseq s + 2 := cbM_eq (by omega)
  have hid : (cbBuild t cu ref sha s).ID = cbN s := rfl
  have hidm : (cbBuild t cu ref sha s).ID + 1 = cbM s := by
    rw [hid, hn, hm]
  have hval : (Bkt.mk (cbM s) (cbE3 t cu ref sha s)).getVal (itob (cbM s)) =
      some (.bytes (itob (cbN s))) := by
    unfold Bkt.getVal Bkt.getEnt
    simp only [Bkt.entries_mk]
    rw [cbE3, findEnt_insert_self]
  refine ⟨?_, ?_, ?_, rfl, ?_, ?_⟩
  · rw [bseq_cbStore, hm]
  · rw [hidm, hid]
    unfold buildVal cbStore
    exact hval
  · obtain ⟨sb, hsb⟩ := ens_sub hc.sha_noleaf
    have hsb' : findEnt (strKey sha) (cbE2 t cu ref sha s) =
        some (.inr sb) := by
      rw [cbE2]
      exact hsb
    have hne : strKey sha ≠ itob (cbM s) := by
      intro heq
      exact hc.com_nosub sb (by rw [← heq]; exact hsb')
    refine ⟨sb, ?_⟩
    unfold buildSub cbStore Bkt.getSub Bkt.getEnt
    simp only [Bkt.entries_mk]
    rw [cbE3, findEnt_insert_ne _ _ _ hne, hsb']
  · rw [hidm]
    unfold DB.Build
    simp only [cbStore]
    rw [hval]
  · intro t2 cu2 r2 h2 b2 s2 h2ok
    obtain ⟨hb2, -, -⟩ := createBuild_ok h2ok
    subst hb2
    have e2 : (cbBuild t2 cu2 r2 h2 (cbStore t cu ref sha s)).ID =
        cbN (cbStore t cu ref sha s) := rfl
    have hm1 : bseq (cbStore t cu ref sha s) = cbM s :=
      bseq_cbStore t cu ref sha s
    have hn2 : cbN (cbStore t cu ref sha s) =
        bseq (cbStore t cu ref sha s) + 1 := cbN_eq (by rw [hm1, hm]; omega)
    rw [e2, hn2, hm1, hm, hid, hn]

/-- Claim C9, witness: the double allocation observed after one concrete
`CreateBuild`. -/
theorem C9_witness :
    bseq (storeN 0) + 3 < U64 ∧ bseq (storeN 1) = bseq (storeN 0) + 2 ∧
      DB.Build ((buildN 0).ID + 1) (storeN 1) = .error .gobDecode := by
  have h := C9_double_allocation (by decide) hok0
  exact ⟨by decide, h.1, h.2.2.2.2.1⟩

/-- Claim C6: once an operation inside a transaction fails, the handle
remembers the first error, every subsequent wrapped operation is a no-op
(the handle, hence the state, never changes again), and `dispatch` reports
the remembered first error, overriding the transaction function's own
return value. -/
theorem C6_error_short_circuit {σ : Type} (s : σ)
    (ops1 ops2 : List (σ → Except Err σ)) (op : σ → Except Err σ) (e : Err)
    (fErr : Option Err)
    (h1 : (runOps ops1 ⟨s, none⟩).err = none)
    (h2 : op (runOps ops1 ⟨s, none⟩).st = .error e) :
    (runOps (ops1 ++ op :: ops2) ⟨s, none⟩).st =
      (runOps ops1 ⟨s, none⟩).st ∧
    (runOps (ops1 ++ op :: ops2) ⟨s, none⟩).err = some e ∧
    (∀ ops3, runOps ops3 (runOps (ops1 ++ op :: ops2) ⟨s, none⟩) =
      runOps (ops1 ++ op :: ops2) ⟨s, none⟩) ∧
    dispatch (fun tx => (runOps (ops1 ++ op :: ops2) tx, fErr)) s =
      some e := by
  have happ : applyOp (runOps ops1 ⟨s, none⟩) op =
      ⟨(runOps ops1 ⟨s, none⟩).st, some e⟩ := by
    unfold applyOp
    rw [h1, h2]
  have hcons : runOps (op :: ops2) (runOps ops1 ⟨s, none⟩) =
      runOps ops2 ⟨(runOps ops1 ⟨s, none⟩).st, some e⟩ := by
    have hstep : runOps (op :: ops2) (runOps ops1 ⟨s, none⟩) =
        runOps ops2 (applyOp (runOps ops1 ⟨s, none⟩) op) := rfl
    rw [hstep, happ]
  have key : runOps (ops1 ++ op :: ops2) ⟨s, none⟩ =
      ⟨(runOps ops1 ⟨s, none⟩).st, some e⟩ := by
    rw [runOps_append, hcons, runOps_of_err _ _ e rfl]
  refine ⟨by rw [key], by rw [key], ?_, ?_⟩
  · intro ops3
    rw [key, runOps_of_err _ _ e rfl]
  · unfold dispatch
    simp only [key]

/-- Claim C6, witness: a concrete three-operation transaction whose middle
operation fails. -/
theorem C6_witness :
    (runOps [fun n => .ok (n + 1)] (⟨5, none⟩ : TxSt Nat)).err = none ∧
      dispatch (fun tx => (runOps ([fun n => .ok (n + 1)] ++
        (fun _ => .error Err.gobDecode) :: [fun n => .ok (n * 2)]) tx,
        some Err.noBuildBucket)) 5 = some Err.gobDecode := by
  have h := C6_error_short_circuit 5 [fun n => .ok (n + 1)]
    [fun n => .ok (n * 2)] (fun _ => .error Err.gobDecode) Err.gobDecode
    (some Err.noBuildBucket) rfl rfl
  exact ⟨rfl, h.2.2.2⟩

/-- Claim C10: a build type never passed to `CreateBuild` has no refs, a
`(type, ref)` pair never passed has an empty `RefBuilds` result for every
valid range, and `SHABuilds` returns an empty result — each without a
not-found error.  (For the sha index this holds for every sha, which
subsumes the claim; see C5.) -/
theorem C10_missing_keys {tr : List CArgs} {s : Store} (hre : Reach tr s)
    (hw : 2 * tr.length < U64) :
    (∀ t : BuildType, (∀ a ∈ tr, a.t % U64 ≠ t % U64) →
      DB.Refs t s = []) ∧
    (∀ (t : BuildType) (ref : String) (start e : Int),
      (∀ a ∈ tr, ¬(a.t % U64 = t % U64 ∧ a.ref = ref)) →
      validate start e = none →
      DB.RefBuilds t ref start e s = .ok []) ∧
    (∀ sha, DB.SHABuilds sha s = .ok []) := by
  have inv := reach_inv hre hw
  refine ⟨?_, ?_, ?_⟩
  · intro t ht
    rw [Refs_refTB]
    cases htb : refTB s t with
    | none => rfl
    | some tb =>
      obtain ⟨a, ha, hab⟩ := inv.refT_trace t tb htb
      have hmod : a.t % U64 = t % U64 := by
        have hbt := congrArg btoi hab
        rwa [btoi_itob, btoi_itob] at hbt
      exact absurd hmod (ht a ha)
  · intro t ref start e ht hv
    have hnb : refNB s t ref = none := by
      cases hnb : refNB s t ref with
      | none => rfl
      | some nb =>
        obtain ⟨a, ha, hab, har⟩ := inv.refN_trace t ref nb hnb
        have hmod : a.t % U64 = t % U64 := by
          have hbt := congrArg btoi hab
          rwa [btoi_itob, btoi_itob] at hbt
        exact absurd ⟨hmod, har⟩ (ht a ha)
    have hre0 : DB.refBuilds t ref start e s = [] := by
      rw [refBuilds_eq, hnb]
    unfold DB.RefBuilds
    rw [hv]
    have hgoal : (if start = e then (.ok [] : Except Err (List Build))
        else DB.idsToBuilds s (DB.refBuilds t ref start e s)) = .ok [] := by
      by_cases hse : start = e
      · rw [if_pos hse]
      · rw [if_neg hse, hre0]
        rfl
    exact hgoal
  · intro sha
    have hs0 : DB.shaBuilds sha s = [] := shaBuilds_empty inv.sha_empty sha
    unfold DB.SHABuilds
    rw [hs0]
    rfl

/-- Claim C10, witness: after one build of type 0 on ref "m", type 1 has no
refs and an unused sha has an empty history. -/
theorem C10_witness :
    DB.Refs 1 (storeN 1) = [] ∧ DB.SHABuilds "zzz" (storeN 1) = .ok [] := by
  have h := C10_missing_keys reach1 (by decide)
  exact ⟨h.1 1 (by decide), h.2.2 "zzz"⟩

/-- Claim C1: in every reachable store state a build ID is in the pending
bucket (and hence in `PendingBuilds()`) iff its current status is Queued or
Running; the list is in ascending build-ID (creation) order, hydrates
without error, and immediately after a successful `CreateBuild` the new ID
appears in it. -/
theorem C1_pending_invariant {tr : List CArgs} {s : Store} (hre : Reach tr s)
    (hw : 2 * tr.length + 2 < U64) :
    (∀ id, id < U64 →
      (id ∈ DB.pendingBuilds s ↔
        ∃ st, statusOf s id = some st ∧ (st = .queued ∨ st = .running))) ∧
    List.Pairwise (· < ·) (DB.pendingBuilds s) ∧
    (∃ bs, DB.PendingBuilds s = .ok bs ∧
      bs.map Build.ID = DB.pendingBuilds s) ∧
    (∀ t cu ref sha b s', DB.CreateBuild t cu ref sha s = .ok (b, s') →
      b.ID ∈ DB.pendingBuilds s') := by
  have inv := reach_inv hre (by omega)
  refine ⟨?_, inv.pend_sorted, ?_, ?_⟩
  · intro id hid
    constructor
    · intro hmem
      rw [pendingBuilds_eq] at hmem
      obtain ⟨k, hk, hbk⟩ := List.mem_map.mp hmem
      obtain ⟨j, r0, rfl, hjlt, hr0, hp0⟩ := inv.pend_keys k hk
      rw [btoi_itob, Nat.mod_eq_of_lt hjlt] at hbk
      subst hbk
      refine ⟨r0.Status, ?_, isPending_iff.mp hp0⟩
      unfold statusOf
      rw [hr0]
      rfl
    · rintro ⟨st, hst, hqr⟩
      unfold statusOf at hst
      cases hr0 : recordOf s id with
      | none =>
        rw [hr0] at hst
        exact Option.noConfusion hst
      | some r0 =>
        rw [hr0] at hst
        have hst' : r0.Status = st := by simpa using hst
        have hmem := inv.pend_complete id r0 hid hr0
          (isPending_iff.mpr (hst' ▸ hqr))
        rw [pendingBuilds_eq]
        refine List.mem_map.mpr ⟨itob id, hmem, ?_⟩
        rw [btoi_itob, Nat.mod_eq_of_lt hid]
  · have hall : ∀ id ∈ DB.pendingBuilds s,
        ∃ r, recordOf s id = some r ∧ r.ID = id := by
      intro id hmem
      rw [pendingBuilds_eq] at hmem
      obtain ⟨k, hk, hbk⟩ := List.mem_map.mp hmem
      obtain ⟨j, r0, rfl, hjlt, hr0, -⟩ := inv.pend_keys k hk
      rw [btoi_itob, Nat.mod_eq_of_lt hjlt] at hbk
      subst hbk
      exact ⟨r0, hr0, (inv.rec_id j r0 hjlt hr0).1⟩
    exact idsToBuilds_ok hall
  · intro t cu ref sha b s' hok
    have hre' : Reach (tr ++ [⟨t, cu, ref, sha⟩]) s' := Reach.create hre hok
    have inv' := reach_inv hre'
      (by simp only [List.length_append, List.length_singleton]; omega)
    obtain ⟨hb, hs', hc⟩ := createBuild_ok hok
    subst hb
    subst hs'
    have hrec := recordOf_cb_self hc
    have hmem := inv'.pend_complete (cbN s) (cbBuild t cu ref sha s)
      (cbN_lt s) hrec rfl
    rw [pendingBuilds_eq]
    refine List.mem_map.mpr ⟨itob (cbN s), hmem, ?_⟩
    rw [btoi_itob, Nat.mod_eq_of_lt (cbN_lt s)]
    rfl

/-- Claim C1, witness: after one concrete `CreateBuild`, build 1 is pending
and the pending list is ascending. -/
theorem C1_witness :
    (1 ∈ DB.pendingBuilds (storeN 1) ↔
      ∃ st, statusOf (storeN 1) 1 = some st ∧
        (st = .queued ∨ st = .running)) ∧
      List.Pairwise (· < ·) (DB.pendingBuilds (storeN 1)) := by
  have h := C1_pending_invariant reach1 (by decide)
  exact ⟨h.1 1 (by decide), h.2.1⟩

/-- Claim C4, counterexample: two builds on ref "m", then
`RefBuilds(0, "m", 1, -1)` returns 2 builds although the claim's
`available - start` formula predicts `2 - 1 = 1` — the cursor loop of
`refBuilds` never skips `start` entries. -/
theorem C4_counterexample :
    (DB.RefBuilds 0 "m" 1 (-1) (storeN 2)).map List.length = .ok 2 ∧
      (refIds (storeN 2) 0 "m").length = 2 ∧ ¬ (2 : Nat) = 2 - 1 :=
  ⟨rfl, rfl, by decide⟩

/-- Claim C4, amended: in every reachable state, for every valid
`(start, end)`, `RefBuilds` succeeds; the result always begins at the most
recent build (`start` is only validated and, through `end - start`, bounds
the count): with `end = -1` every recorded build is returned regardless of
`start`, otherwise (for `start ≠ end`) exactly `min(end - start, available)`
newest builds; the IDs are strictly descending. -/
theorem C4_amended {tr : List CArgs} {s : Store} (hre : Reach tr s)
    (hw : 2 * tr.length < U64) (t : BuildType) (ref : String)
    {start e : Int} (hv : validate start e = none) :
    ∃ bs, DB.RefBuilds t ref start e s = .ok bs ∧
      bs.map Build.ID =
        (if start = e then []
         else if e = -1 then (refIds s t ref).reverse
         else (refIds s t ref).reverse.take (e - start).toNat) ∧
      bs.length =
        (if start = e then 0
         else if e = -1 then (refIds s t ref).length
         else min (e - start).toNat (refIds s t ref).length) ∧
      List.Pairwise (· > ·) (bs.map Build.ID) := by
  have inv := reach_inv hre hw
  by_cases hse : start = e
  · refine ⟨[], ?_, by simp [hse], by simp [hse], by simp⟩
    unfold DB.RefBuilds
    rw [hv]
    have hgoal : (if start = e then (.ok [] : Except Err (List Build))
        else DB.idsToBuilds s (DB.refBuilds t ref start e s)) = .ok [] :=
      if_pos hse
    exact hgoal
  · have hids : ∀ x ∈ refIds s t ref,
        ∃ r, recordOf s x = some r ∧ r.ID = x := by
      intro x hx
      unfold refIds at hx
      cases hnb : refNB s t ref with
      | none =>
        rw [hnb] at hx
        simp at hx
      | some nb =>
        rw [hnb] at hx
        obtain ⟨p, hp, rfl⟩ := List.mem_map.mp hx
        obtain ⟨i, v, h1, h2, h3, h4, h5, h6, r0, hr0⟩ :=
          inv.ref_ents t ref nb hnb p hp
        rw [h4, entBytes_bytes, btoi_itob, Nat.mod_eq_of_lt (by omega)]
        exact ⟨r0, hr0, (inv.rec_id v r0 (by omega) hr0).1⟩
    set ids := DB.refBuilds t ref start e s with hids_def
    have hids_val : ids = (if e = -1 then (refIds s t ref).reverse
        else (refIds s t ref).reverse.take (e - start).toNat) := by
      rw [hids_def, refBuilds_eq]
      cases hnb : refNB s t ref with
      | none =>
        have hempty : refIds s t ref = [] := by unfold refIds; rw [hnb]
        rw [hempty]
        simp
      | some nb =>
        have hrid : refIds s t ref =
            nb.entries.map (fun p => btoi (entBytes p.2)) := by
          unfold refIds
          rw [hnb]
        have hmaprev : nb.entries.reverse.map (fun p => btoi (entBytes p.2)) =
            (refIds s t ref).reverse := by
          rw [hrid, List.map_reverse]
        by_cases he : e = -1
        · rw [if_pos he, he]
          show collectRef (-1) (-1 - start) nb.entries.reverse [] =
            (refIds s t ref).reverse
          rw [collectRef_neg1]
          simpa using hmaprev
        · rw [if_neg he]
          show collectRef e (e - start) nb.entries.reverse [] =
            List.take (e - start).toNat (refIds s t ref).reverse
          rw [collectRef_take he]
          simp only [List.length_nil, Nat.sub_zero, List.nil_append]
          rw [hmaprev]
    have hsub : ∀ x ∈ ids, x ∈ refIds s t ref := by
      intro x hx
      rw [hids_val] at hx
      by_cases he : e = -1
      · rw [if_pos he] at hx
        exact List.mem_reverse.mp hx
      · rw [if_neg he] at hx
        exact List.mem_reverse.mp (List.mem_of_mem_take hx)
    obtain ⟨bs, hbs, hmap⟩ :=
      idsToBuilds_ok (fun id hid => hids id (hsub id hid))
    have hrev : List.Pairwise (· > ·) (refIds s t ref).reverse := by
      rw [List.pairwise_reverse]
      exact inv.ref_sorted t ref
    refine ⟨bs, ?_, ?_, ?_, ?_⟩
    · unfold DB.RefBuilds
      rw [hv]
      have hgoal : (if start = e then (.ok [] : Except Err (List Build))
          else DB.idsToBuilds s (DB.refBuilds t ref start e s)) = .ok bs := by
        rw [if_neg hse]
        exact hbs
      exact hgoal
    · rw [hmap, hids_val, if_neg hse]
    · rw [show bs.length = (bs.map Build.ID).length from
        (List.length_map _ _).symm, hmap, hids_val, if_neg hse]
      by_cases he : e = -1
      · rw [if_pos he, if_pos he, List.length_reverse]
      · rw [if_neg he, if_neg he, List.length_take, List.length_reverse]
    · rw [hmap, hids_val]
      by_cases he : e = -1
      · rw [if_pos he]
        exact hrev
      · rw [if_neg he]
        exact List.Pairwise.sublist (List.take_sublist _ _) hrev

/-- Claim C4, witness: the amended statement on a concrete two-build
store, `start = 0`, `end = -1`. -/
theorem C4_witness :
    validate 0 (-1) = none ∧
      (∃ bs, DB.RefBuilds 0 "m" 0 (-1) (storeN 2) = .ok bs ∧
        bs.map Build.ID = (refIds (storeN 2) 0 "m").reverse ∧
        List.Pairwise (· > ·) (bs.map Build.ID)) := by
  obtain ⟨bs, h1, h2, -, h4⟩ := C4_amended reach2 (by decide) 0 "m"
    (show validate 0 (-1) = none from rfl)
  refine ⟨rfl, bs, h1, ?_, h4⟩
  rw [h2]
  norm_num
